import Mathlib

/-!
# RSM: the recursive state chain of `include/RSM.h`

A verification development of `base::State<T>`: the object graph is embedded as
an explicit heap of `State` records addressed by `Addr`; every member function
becomes a function on `Machine` that returns `none` when the C++ would
dereference a pointer to no live object.  The recursive member functions take a
fuel argument that bounds the depth of the call stack.  The four virtual hooks
`init`, `finalize`, `preUpdate`, `postUpdate` are pure virtual in the header; a
call to one is recorded in `Machine.trace`, together with the value of the
node's flag at that moment in `Machine.observed`, and has no other effect on
the chain (hooks that themselves call chain operations are outside this
development).  The constructor `State() {}` assigns no member: a new object
starts with what the memory held, `Machine.uninit`.
-/

namespace RSM

/-- The address of a `State<T>` object (a `State<T>*` that is not null). -/
abbrev Addr := Nat

/-- The concrete class of a state, the argument of `DECLARE_STATE_COPY`. -/
abbrev StateClass := Nat

/-- The four pure virtual hooks of `State<T>`. -/
inductive Hook where
  | init
  | finalize
  | preUpdate
  | postUpdate
  deriving DecidableEq, Repr

/-- One invocation of a hook on a node. -/
structure Event where
  hook : Hook
  node : Addr
  deriving DecidableEq, Repr

/-- The data members of one `State<T>` object, and its dynamic class `cls`
(what the virtual `copy` dispatches on). -/
structure State where
  m_subState : Option Addr
  m_parentState : Option Addr
  m_obj : Option Addr
  m_active : Bool
  cls : StateClass
  deriving DecidableEq, Repr

/-- The live objects. -/
abbrev Heap := Addr → Option State

/-- Store `v` at address `a`. -/
def Heap.set (h : Heap) (a : Addr) (v : Option State) : Heap :=
  fun x => if x = a then v else h x

/-- The object graph, the allocator cursor (`new` hands out `next`), the hook
invocations so far, for each of them what `isActive()` returned on the node
while the hook ran (`observed`), and what the memory at each address holds when
`new` hands it out (`uninit`): `State()` has an empty body, so a new object
starts with these values in its members. -/
structure Machine where
  heap : Heap
  next : Addr
  trace : List Event
  observed : List (Event × Bool)
  uninit : Addr → State

/-- A virtual hook call `this->hook()`: defined only on a live object. -/
def callHook (m : Machine) (this : Addr) (hk : Hook) : Option Machine :=
  match m.heap this with
  | none => none
  | some self =>
    some { m with
      trace := m.trace ++ [Event.mk hk this]
      observed := m.observed ++ [(Event.mk hk this, self.m_active)] }

/-- Assignment to members of `*this`. -/
def modify (m : Machine) (this : Addr) (f : State → State) : Option Machine :=
  match m.heap this with
  | none => none
  | some self => some { m with heap := m.heap.set this (some (f self)) }

/-- Modelled from the spec: `setObj`, called by `createSubState` and not declared
in `RSM.h`; "assign it the shared context". -/
def setObj (m : Machine) (this : Addr) (obj : Option Addr) : Option Machine :=
  modify m this (fun self => { self with m_obj := obj })

/-- Modelled from the spec: `setState`, called by `createSubState` and not declared
in `RSM.h`; "link it as child". -/
def setState (m : Machine) (this : Addr) (sub : Option Addr) : Option Machine :=
  modify m this (fun self => { self with m_subState := sub })

/-- Modelled from the spec: `setParentState`, called by `createSubState` and not
declared in `RSM.h`; "set its parent to the current node". -/
def setParentState (m : Machine) (this : Addr) (p : Option Addr) : Option Machine :=
  modify m this (fun self => { self with m_parentState := p })

/-- The virtual `copy()` as `DECLARE_STATE_COPY` defines it, `new StateClass ()`:
a new object of the prototype's class at a fresh address.  `State()` assigns no
member, so the four data members hold what the memory held, `m.uninit m.next`;
only the class is the prototype's. -/
def copy (m : Machine) (cls : StateClass) : Addr × Machine :=
  (m.next,
    { m with
      heap := m.heap.set m.next (some { m.uninit m.next with cls := cls })
      next := m.next + 1 })

/-- The statement `delete m_subState;`: the object at `c` stops being live.
`~State()` has an empty body, so no other object is touched. -/
def deleteState (m : Machine) (c : Addr) : Machine :=
  { m with heap := m.heap.set c none }

/-- `initState`: `m_active = true; init();` -/
def initState (m : Machine) (this : Addr) : Option Machine :=
  match modify m this (fun self => { self with m_active := true }) with
  | none => none
  | some m1 => callHook m1 this Hook.init

/-- `finalizeState`: `m_active = false; finalize();` -/
def finalizeState (m : Machine) (this : Addr) : Option Machine :=
  match modify m this (fun self => { self with m_active := false }) with
  | none => none
  | some m1 => callHook m1 this Hook.finalize

/-- `preUpdateState`: `preUpdate();` -/
def preUpdateState (m : Machine) (this : Addr) : Option Machine :=
  callHook m this Hook.preUpdate

/-- `postUpdateState`: `postUpdate();` -/
def postUpdateState (m : Machine) (this : Addr) : Option Machine :=
  callHook m this Hook.postUpdate

/-- The free function `createSubState(state, subState)`. -/
def createSubState (m : Machine) (state : Addr) (subState : StateClass) :
    Option Machine :=
  match copy m subState with
  | (newState, m1) =>
    match m1.heap state with
    | none => none
    | some st =>
      match setObj m1 newState st.m_obj with
      | none => none
      | some m2 =>
        match setState m2 state (some newState) with
        | none => none
        | some m3 =>
          match setParentState m3 newState (some state) with
          | none => none
          | some m4 => initState m4 newState

/-- `State::enterState`.  The first test is `!isActive() && getParentState()`. -/
def enterState : Nat → Machine → Addr → StateClass → Option Machine
  | 0, _, _, _ => none
  | fuel + 1, m, this, state =>
    match m.heap this with
    | none => none
    | some self =>
      match self.m_active, self.m_parentState with
      | false, some parent => enterState fuel m parent state
      | _, _ =>
        match self.m_subState with
        | some c =>
          match m.heap c with
          | none => none
          | some sub =>
            if sub.m_active then enterState fuel m c state
            else createSubState (deleteState m c) this state
        | none => createSubState m this state

/-- `State::endState`. -/
def endState : Nat → Machine → Addr → Option Machine
  | 0, _, _ => none
  | fuel + 1, m, this =>
    match m.heap this with
    | none => none
    | some self =>
      match self.m_subState with
      | some c =>
        match endState fuel m c with
        | none => none
        | some m1 => finalizeState m1 this
      | none => finalizeState m this

/-- `State::execute`. -/
def execute : Nat → Machine → Addr → Option Machine
  | 0, _, _ => none
  | fuel + 1, m, this =>
    match preUpdateState m this with
    | none => none
    | some m1 =>
      match m1.heap this with
      | none => none
      | some self =>
        match self.m_subState with
        | some c =>
          match m1.heap c with
          | none => none
          | some sub =>
            if sub.m_active then
              match execute fuel m1 c with
              | none => none
              | some m2 => postUpdateState m2 this
            else
              match setState (deleteState m1 c) this none with
              | none => none
              | some m2 => postUpdateState m2 this
        | none => postUpdateState m1 this

/-- `isActive()` read through a pointer: `none` when no live object is there. -/
def active (m : Machine) (a : Addr) : Option Bool :=
  (m.heap a).map State.m_active

/-- `getState()` read through a pointer. -/
def child (m : Machine) (a : Addr) : Option (Option Addr) :=
  (m.heap a).map State.m_subState

/-- `getParentState()` read through a pointer. -/
def parent (m : Machine) (a : Addr) : Option (Option Addr) :=
  (m.heap a).map State.m_parentState

/-- `getObj()` read through a pointer. -/
def obj (m : Machine) (a : Addr) : Option (Option Addr) :=
  (m.heap a).map State.m_obj

/-- The list `l` is a path of live objects in which every node's child is the
next node of the list (none for the last) and every node's parent is the
previous node (`par` for the first). -/
def Linked (m : Machine) : Option Addr → List Addr → Prop
  | _, [] => True
  | par, a :: rest =>
    parent m a = some par ∧ child m a = some rest.head? ∧ Linked m (some a) rest

instance Linked.dec (m : Machine) :
    (par : Option Addr) → (l : List Addr) → Decidable (Linked m par l)
  | _, [] => isTrue trivial
  | par, a :: rest =>
    have := Linked.dec m (some a) rest
    inferInstanceAs
      (Decidable (parent m a = some par ∧ child m a = some rest.head? ∧
        Linked m (some a) rest))

/-- A well-formed chain: `l` lists the nodes from the root (no parent) to the
tail (no child), it is a simple path with matching parent links, and every node
was handed out by the allocator. -/
def WellFormed (m : Machine) (l : List Addr) : Prop :=
  l ≠ [] ∧ l.Nodup ∧ (∀ a ∈ l, a < m.next) ∧ Linked m none l

instance (m : Machine) (l : List Addr) : Decidable (WellFormed m l) := by
  unfold WellFormed; infer_instance

/-- The list `l` is a path of live objects like `Linked`, except that nothing is
said of the child slot of its last node. -/
def Path (m : Machine) : Option Addr → List Addr → Prop
  | _, [] => True
  | par, a :: rest =>
    parent m a = some par ∧ (rest ≠ [] → child m a = some rest.head?) ∧ Path m (some a) rest

instance Path.dec (m : Machine) :
    (par : Option Addr) → (l : List Addr) → Decidable (Path m par l)
  | _, [] => isTrue trivial
  | par, a :: rest =>
    have := Path.dec m (some a) rest
    inferInstanceAs
      (Decidable (parent m a = some par ∧ (rest ≠ [] → child m a = some rest.head?) ∧
        Path m (some a) rest))

/-- A heap with no live object. -/
def emptyHeap : Heap := fun _ => none

/-- A test machine whose chain is the given list of (active flag, class), the
first entry being the root at address 0, all with context object 100. -/
def chainHeap : Option Addr → Addr → List (Bool × StateClass) → Heap
  | _, _, [] => emptyHeap
  | par, a, (act, c) :: rest =>
    (chainHeap (some a) (a + 1) rest).set a
      (some (State.mk (if rest = [] then none else some (a + 1)) par (some 100) act c))

/-- Memory that holds zeroes. -/
def zeroed : Addr → State := fun _ => State.mk none none none false 0

/-- Memory whose every word holds the address `g`. -/
def stale (g : Addr) : Addr → State := fun _ => State.mk (some g) (some g) (some g) true 0

/-- The machine holding `chainHeap`, no hook invoked yet, the free memory
zeroed. -/
def mkChain (l : List (Bool × StateClass)) : Machine :=
  { heap := chainHeap none 0 l, next := l.length, trace := [], observed := [],
    uninit := zeroed }

/-- A test machine: root(inactive) -> 1(active) -> 2(inactive) -> 3(active). -/
def prunable : Machine := mkChain [(false, 7), (true, 8), (false, 9), (true, 6)]

/-- A test machine: an active root with no child, and free memory that holds the
stale address 7, where no object lives, in every word. -/
def staleRoot : Machine := { mkChain [(true, 7)] with uninit := stale 7 }

/-- A test machine: the chain of `prunable`, and free memory that holds the
stale address 9, where no object lives, in every word. -/
def stalePrunable : Machine := { prunable with uninit := stale 9 }

/-- The parent of the node that follows the nodes `pre`, when the first of them
has parent `par`. -/
def parentOf (par : Option Addr) : List Addr → Option Addr
  | [] => par
  | a :: rest => parentOf (some a) rest

/-- The machine after `delete m_subState` when there is a child to delete. -/
def dropChild (m : Machine) : Option Addr → Machine
  | none => m
  | some c => deleteState m c

/-- The closed form of `createSubState (m, state, cls)` when `state` points to
the live object `st`. -/
def attached (m : Machine) (state : Addr) (st : State) (cls : StateClass) : Machine :=
  { m with
    heap := (m.heap.set state (some { st with m_subState := some m.next })).set m.next
      (some (State.mk (m.uninit m.next).m_subState (some state) st.m_obj true cls))
    next := m.next + 1
    trace := m.trace ++ [Event.mk Hook.init m.next]
    observed := m.observed ++ [(Event.mk Hook.init m.next, true)] }

/-- What the hook `hk`, invoked on the nodes `l` in turn in a machine with the
heap of `m`, observes of their flags. -/
def seen (m : Machine) (hk : Hook) (l : List Addr) : List (Event × Bool) :=
  l.map (fun a => (Event.mk hk a, (active m a).getD false))

/-- The last node of the path `a :: l`. -/
def lastOf : Addr → List Addr → Addr
  | a, [] => a
  | _, b :: r => lastOf b r

/-- The heap after a tick has deleted the inactive child `d` of `nj` and cleared
the slot; the heap itself when there was no such child. -/
def pruned (m : Machine) (nj : Addr) : Option Addr → Heap
  | none => m.heap
  | some c => (m.heap.set c none).set nj
      ((m.heap nj).map fun st => { st with m_subState := none })

/-- One call of a chain operation on the node `n`. -/
inductive Op where
  | enterState (n : Addr) (s : StateClass)
  | endState (n : Addr)
  | execute (n : Addr)

/-- The node a call is made on. -/
def Op.node : Op → Addr
  | Op.enterState n _ => n
  | Op.endState n => n
  | Op.execute n => n

/-- The call itself, with `fuel` stack frames available. -/
def Op.run (fuel : Nat) (m : Machine) : Op → Option Machine
  | Op.enterState n s => RSM.enterState fuel m n s
  | Op.endState n => RSM.endState fuel m n
  | Op.execute n => RSM.execute fuel m n

/-- The node `n` is currently on the chain that hangs from `root`: a path of
live objects leads from the root to it, each the child of the one before and
with the one before as its parent. -/
def OnChain (m : Machine) (root n : Addr) : Prop :=
  ∃ rest, Path m none (root :: rest) ∧ n ∈ root :: rest

/-- The machines a run can be in: it starts from a root that has no parent and
no child and is the only live object, with no hook invoked yet, and every step
is a call of `enterState`, `endState` or `execute` that returns, made on a node
currently on the chain. -/
inductive Reachable (root : Addr) : Machine → Prop
  | start (m : Machine) : WellFormed m [root] → (∀ a, a ≠ root → m.heap a = none) →
      m.trace = [] → Reachable root m
  | step (m m1 : Machine) (op : Op) (fuel : Nat) :
      Reachable root m → OnChain m root op.node → op.run fuel m = some m1 →
      Reachable root m1

/-- Every live object was handed out by the allocator. -/
def LiveBelow (m : Machine) : Prop :=
  ∀ a, m.heap a ≠ none → a < m.next

/-- Inactivity passes down: when a live object `p` that has a parent is
inactive and its child slot points to a live object `c` whose parent is `p`,
then `c` is inactive. -/
def Settled (m : Machine) : Prop :=
  ∀ p c sp sc, m.heap p = some sp → m.heap c = some sc →
    sp.m_parentState ≠ none → sp.m_active = false → sp.m_subState = some c →
    sc.m_parentState = some p → sc.m_active = false

/-- What holds of the chain `root :: rest` in every machine of a run. -/
structure ChainInv (root : Addr) (m : Machine) (rest : List Addr) : Prop where
  wf : WellFormed m (root :: rest)
  ctx : ∀ x ∈ rest, obj m x = obj m root
  below : ∀ p ∈ rest, ∀ c, child m p = some (some c) → active m p = some false →
    active m c = some false
  started : ∀ x ∈ rest, Event.mk Hook.init x ∈ m.trace
  finished : ∀ x ∈ rest, active m x = some false →
    [Event.mk Hook.init x, Event.mk Hook.finalize x].Sublist m.trace

/-- A test run, first machine: a root with no child, active, no hook invoked. -/
def bareRoot : Machine := mkChain [(true, 7)]

/-- A test run, second machine: `enterState` of class 8 on the root. -/
def entered : Machine := (enterState 1 bareRoot 0 8).getD bareRoot

/-- A test run, third machine: another `enterState`, of class 9, on the root;
the chain is root -> 1 -> 2. -/
def enteredTwice : Machine := (enterState 2 entered 0 9).getD bareRoot

/-- A test run, fourth machine: `endState` on node 1, which finalizes nodes 2
and 1. -/
def bothEnded : Machine := (endState 2 enteredTwice 1).getD bareRoot

/-- A test machine: an inactive root with no child, the only live object, and
free memory that holds the address of the root in every word. -/
def loopRoot : Machine := { mkChain [(false, 7)] with uninit := stale 0 }

/-- A second test run, second machine: `enterState` of class 8 on the root of
`loopRoot`. -/
def loopEntered : Machine := (enterState 1 loopRoot 0 8).getD loopRoot

/-- A second test run, third machine: another `enterState`, of class 9, on the
root of `loopEntered`. -/
def loopReplaced : Machine := (enterState 2 loopEntered 0 9).getD loopRoot

/-! ## Heap and path lemmas -/

@[simp] theorem Heap.set_same (h : Heap) (a : Addr) (v : Option State) :
    (h.set a v) a = v := by
  simp [Heap.set]

theorem Heap.set_ne (h : Heap) {a x : Addr} (v : Option State) (hx : x ≠ a) :
    (h.set a v) x = h x := by
  simp [Heap.set, hx]

theorem parentOf_append_singleton (par : Option Addr) (pre : List Addr) (p : Addr) :
    parentOf par (pre ++ [p]) = some p := by
  induction pre generalizing par with
  | nil => rfl
  | cons a rest ih => simpa [parentOf] using ih (some a)

theorem parentOf_nil_or_some (par : Option Addr) (pre : List Addr) :
    (pre = [] ∧ parentOf par pre = par) ∨ ∃ p, parentOf par pre = some p ∧ p ∈ pre := by
  induction pre generalizing par with
  | nil => exact Or.inl ⟨rfl, rfl⟩
  | cons a rest ih =>
    right
    rcases ih (some a) with ⟨h1, h2⟩ | ⟨p, hp, hmem⟩
    · exact ⟨a, by simpa [parentOf] using h2, by simp⟩
    · exact ⟨p, by simpa [parentOf] using hp, by simp [hmem]⟩

/-- The record of a node in the middle of a linked path. -/
theorem Linked.node {m : Machine} {par : Option Addr} {pre post : List Addr} {x : Addr}
    (h : Linked m par (pre ++ x :: post)) :
    ∃ st, m.heap x = some st ∧ st.m_parentState = parentOf par pre ∧
      st.m_subState = post.head? ∧ Linked m (some x) post := by
  induction pre generalizing par with
  | nil =>
    obtain ⟨h1, h2, h3⟩ := h
    cases hx : m.heap x with
    | none => simp [parent, hx] at h1
    | some st =>
      refine ⟨st, rfl, ?_, ?_, h3⟩
      · simpa [parent, hx] using h1
      · simpa [child, hx] using h2
  | cons a rest ih =>
    obtain ⟨_, _, h3⟩ := h
    simpa [parentOf] using ih h3

/-- The record of the first node of a linked path. -/
theorem Linked.head {m : Machine} {par : Option Addr} {post : List Addr} {x : Addr}
    (h : Linked m par (x :: post)) :
    ∃ st, m.heap x = some st ∧ st.m_parentState = par ∧
      st.m_subState = post.head? ∧ Linked m (some x) post :=
  @Linked.node m par [] post x h

/-- A path stays linked in any machine whose heap agrees on its nodes. -/
theorem Linked.frame {m m' : Machine} {par : Option Addr} {l : List Addr}
    (h : Linked m par l) (hsame : ∀ a ∈ l, m'.heap a = m.heap a) : Linked m' par l := by
  induction l generalizing par with
  | nil => trivial
  | cons a rest ih =>
    obtain ⟨h1, h2, h3⟩ := h
    have ha : m'.heap a = m.heap a := hsame a (by simp)
    refine ⟨?_, ?_, ih h3 (fun b hb => hsame b (by simp [hb]))⟩
    · simpa [parent, ha] using h1
    · simpa [child, ha] using h2

/-- Replacing what hangs below `y`: the nodes above `y` are untouched. -/
theorem Linked.replace_below {m m' : Machine} {par : Option Addr}
    {pre rest rest' : List Addr} {y : Addr}
    (h : Linked m par (pre ++ y :: rest))
    (hsame : ∀ a ∈ pre, m'.heap a = m.heap a)
    (hy : Linked m' (parentOf par pre) (y :: rest')) :
    Linked m' par (pre ++ y :: rest') := by
  induction pre generalizing par with
  | nil => simpa [parentOf] using hy
  | cons a pre' ih =>
    obtain ⟨h1, h2, h3⟩ := h
    have ha : m'.heap a = m.heap a := hsame a (by simp)
    refine ⟨?_, ?_, ih h3 (fun b hb => hsame b (by simp [hb])) (by simpa [parentOf] using hy)⟩
    · simpa [parent, ha] using h1
    · have : (pre' ++ y :: rest').head? = (pre' ++ y :: rest).head? := by
        cases pre' <;> simp
      simpa [child, ha, this] using h2

/-- The closed form of `createSubState`. -/
theorem createSubState_eq {m : Machine} {state : Addr} {st : State} (cls : StateClass)
    (hst : m.heap state = some st) (hne : state ≠ m.next) :
    createSubState m state cls = some (attached m state st cls) := by
  have hne' : m.next ≠ state := fun h => hne h.symm
  simp only [createSubState, copy, setObj, setState, setParentState, initState, modify,
    callHook, Heap.set_same, Heap.set_ne _ _ hne, Heap.set_ne _ _ hne', hst, attached]
  congr 2
  funext x
  by_cases h1 : x = m.next
  · simp [Heap.set, h1]
  · by_cases h2 : x = state
    · subst h2; simp [Heap.set, hne]
    · simp [Heap.set, h1, h2]

@[simp] theorem dropChild_next (m : Machine) (d : Option Addr) :
    (dropChild m d).next = m.next := by
  cases d <;> rfl

@[simp] theorem dropChild_trace (m : Machine) (d : Option Addr) :
    (dropChild m d).trace = m.trace := by
  cases d <;> rfl

theorem dropChild_heap_ne (m : Machine) {d : Option Addr} {x : Addr}
    (hx : ∀ c, d = some c → x ≠ c) : (dropChild m d).heap x = m.heap x := by
  cases d with
  | none => rfl
  | some c => exact Heap.set_ne _ _ (hx c rfl)

@[simp] theorem dropChild_uninit (m : Machine) (d : Option Addr) :
    (dropChild m d).uninit = m.uninit := by
  cases d <;> rfl

@[simp] theorem dropChild_observed (m : Machine) (d : Option Addr) :
    (dropChild m d).observed = m.observed := by
  cases d <;> rfl

theorem attached_heap_new (m : Machine) (y : Addr) (st : State) (cls : StateClass) :
    (attached m y st cls).heap m.next =
      some (State.mk (m.uninit m.next).m_subState (some y) st.m_obj true cls) := by
  simp [attached]

theorem attached_heap_at (m : Machine) {y : Addr} (st : State) (cls : StateClass)
    (hne : y ≠ m.next) :
    (attached m y st cls).heap y = some { st with m_subState := some m.next } := by
  simp [attached, Heap.set, hne]

theorem attached_heap_other (m : Machine) {x y : Addr} (st : State) (cls : StateClass)
    (h1 : x ≠ m.next) (h2 : x ≠ y) : (attached m y st cls).heap x = m.heap x := by
  simp [attached, Heap.set, h1, h2]

/-- One call of `enterState` on a node that is active or has no parent. -/
theorem enterState_stay {m : Machine} {x : Addr} {st : State} (f : Nat) (s : StateClass)
    (hx : m.heap x = some st) (h : st.m_active = true ∨ st.m_parentState = none) :
    enterState (f + 1) m x s =
      match st.m_subState with
      | some c =>
        match m.heap c with
        | none => none
        | some sub =>
          if sub.m_active then enterState f m c s
          else createSubState (deleteState m c) x s
      | none => createSubState m x s := by
  rw [enterState]
  simp only [hx]
  rcases h with h | h
  · rw [h]
  · rw [h]
    cases st.m_active <;> rfl

/-- One call of `enterState` on an inactive node that has a parent. -/
theorem enterState_up {m : Machine} {x p : Addr} {st : State} (f : Nat) (s : StateClass)
    (hx : m.heap x = some st) (ha : st.m_active = false) (hp : st.m_parentState = some p) :
    enterState (f + 1) m x s = enterState f m p s := by
  rw [enterState]
  simp only [hx, ha, hp]

/-- Descent: from a node that is active or the root, `enterState` walks down
through active children and attaches at the first node whose child is missing
or inactive. -/
theorem enterState_descend {m : Machine} {l : List Addr} (hl : Linked m none l)
    (s : StateClass) :
    ∀ (post pre : List Addr) (x : Addr) (st : State), l = pre ++ x :: post →
      m.heap x = some st → (st.m_active = true ∨ pre = []) →
      ∃ pre1 y rest sty, l = pre1 ++ y :: rest ∧ m.heap y = some sty ∧
        (sty.m_active = true ∨ pre1 = []) ∧
        (∀ c, rest.head? = some c → active m c = some false) ∧
        ∀ f, post.length + 1 ≤ f →
          enterState f m x s = createSubState (dropChild m rest.head?) y s := by
  intro post
  induction post with
  | nil =>
    intro pre x st hdec hx hroot
    refine ⟨pre, x, [], st, hdec, hx, hroot, by simp, ?_⟩
    intro f hf
    obtain ⟨f, rfl⟩ : ∃ g, f = g + 1 := ⟨f - 1, by omega⟩
    obtain ⟨st1, h1, h2, h3, _⟩ := Linked.node (hdec ▸ hl)
    rw [hx] at h1
    cases h1
    have hstay : st.m_active = true ∨ st.m_parentState = none := by
      rcases hroot with h | h
      · exact Or.inl h
      · right; rw [h2, h]; rfl
    rw [enterState_stay f s hx hstay]
    simp only [List.head?_nil] at h3
    rw [h3]
    rfl
  | cons c post1 ih =>
    intro pre x st hdec hx hroot
    obtain ⟨st1, h1, h2, h3, _⟩ := Linked.node (hdec ▸ hl)
    rw [hx] at h1
    cases h1
    have hstay : st.m_active = true ∨ st.m_parentState = none := by
      rcases hroot with h | h
      · exact Or.inl h
      · right; rw [h2, h]; rfl
    have hdec1 : l = (pre ++ [x]) ++ c :: post1 := by simp [hdec]
    obtain ⟨stc, hc, -, -, -⟩ := Linked.node (hdec1 ▸ hl)
    simp only [List.head?_cons] at h3
    cases hact : stc.m_active with
    | true =>
      obtain ⟨pre1, y, rest, sty, e1, e2, e3, e4, e5⟩ :=
        ih (pre ++ [x]) c stc hdec1 hc (Or.inl hact)
      refine ⟨pre1, y, rest, sty, e1, e2, e3, e4, ?_⟩
      intro f hf
      obtain ⟨f, rfl⟩ : ∃ g, f = g + 1 := ⟨f - 1, by omega⟩
      rw [enterState_stay f s hx hstay, h3]
      simp only [hc, hact, if_true]
      exact e5 f (by simp only [List.length_cons] at hf; omega)
    | false =>
      refine ⟨pre, x, c :: post1, st, hdec, hx, hroot, ?_, ?_⟩
      · intro c1 hc1
        simp only [List.head?_cons, Option.some.injEq] at hc1
        subst hc1
        simp [active, hc, hact]
      · intro f hf
        obtain ⟨f, rfl⟩ : ∃ g, f = g + 1 := ⟨f - 1, by omega⟩
        rw [enterState_stay f s hx hstay, h3]
        simp only [hc, hact]
        rfl

/-- Ascent: from any node, `enterState` climbs through inactive nodes to the
first node that is active or is the root. -/
theorem enterState_climb {m : Machine} {l : List Addr} (hl : Linked m none l)
    (s : StateClass) :
    ∀ (pre : List Addr) (x : Addr) (post : List Addr), l = pre ++ x :: post →
      ∃ pre1 z post1 stz, l = pre1 ++ z :: post1 ∧ m.heap z = some stz ∧
        (stz.m_active = true ∨ pre1 = []) ∧
        ∃ k, k ≤ pre.length ∧ ∀ f, enterState (f + k) m x s = enterState f m z s := by
  intro pre
  induction pre using List.reverseRecOn with
  | nil =>
    intro x post hdec
    obtain ⟨st, hx, -, -, -⟩ := Linked.node (hdec ▸ hl)
    exact ⟨[], x, post, st, hdec, hx, Or.inr rfl, 0, le_refl _, fun f => rfl⟩
  | append_singleton pre0 p ih =>
    intro x post hdec
    obtain ⟨st, hx, hpar, -, -⟩ := Linked.node (hdec ▸ hl)
    cases hact : st.m_active with
    | true =>
      exact ⟨pre0 ++ [p], x, post, st, hdec, hx, Or.inl hact, 0, Nat.zero_le _, fun f => rfl⟩
    | false =>
      rw [parentOf_append_singleton] at hpar
      have hdec0 : l = pre0 ++ p :: (x :: post) := by simp [hdec]
      obtain ⟨pre1, z, post1, stz, e1, e2, e3, k, hk, e4⟩ := ih p (x :: post) hdec0
      refine ⟨pre1, z, post1, stz, e1, e2, e3, k + 1, by simp; omega, ?_⟩
      intro f
      rw [← Nat.add_assoc, enterState_up (f + k) s hx hact hpar]
      exact e4 f

/-- A linked path is a path. -/
theorem Linked.toPath {m : Machine} {par : Option Addr} {l : List Addr}
    (h : Linked m par l) : Path m par l := by
  induction l generalizing par with
  | nil => trivial
  | cons a rest ih => exact ⟨h.1, fun _ => h.2.1, ih h.2.2⟩

/-- A path whose last node has no child is a linked path. -/
theorem Path.toLinked {m : Machine} {par : Option Addr} {front : List Addr} {z : Addr}
    (h : Path m par (front ++ [z])) (hz : child m z = some none) :
    Linked m par (front ++ [z]) := by
  induction front generalizing par with
  | nil => exact ⟨h.1, by simpa using hz, trivial⟩
  | cons a rest ih =>
    obtain ⟨h1, h2, h3⟩ := h
    exact ⟨h1, h2 (by simp), ih h3⟩

/-- Replacing what hangs below `y`, for paths. -/
theorem Path.replace_tail {m m' : Machine} {par : Option Addr}
    {pre rest rest' : List Addr} {y : Addr}
    (h : Linked m par (pre ++ y :: rest))
    (hsame : ∀ a ∈ pre, m'.heap a = m.heap a)
    (hy : Path m' (parentOf par pre) (y :: rest')) :
    Path m' par (pre ++ y :: rest') := by
  induction pre generalizing par with
  | nil => simpa [parentOf] using hy
  | cons a pre' ih =>
    obtain ⟨h1, h2, h3⟩ := h
    have ha : m'.heap a = m.heap a := hsame a (by simp)
    refine ⟨?_, fun _ => ?_,
      ih h3 (fun b hb => hsame b (by simp [hb])) (by simpa [parentOf] using hy)⟩
    · simpa [parent, ha] using h1
    · have : (pre' ++ y :: rest').head? = (pre' ++ y :: rest).head? := by
        cases pre' <;> simp
      simpa [child, ha, this] using h2

/-- Attaching below `y`, after dropping what hung there, leaves the path from
the root to the new node; nothing is known of the new node's child slot, which
`createSubState` does not assign. -/
theorem attached_path {m : Machine} {pre rest : List Addr} {y : Addr} {st : State}
    (wf : WellFormed m (pre ++ y :: rest)) (hy : m.heap y = some st) (s : StateClass) :
    Path (attached (dropChild m rest.head?) y st s) none (pre ++ [y, m.next]) := by
  obtain ⟨-, hnd, hlt, hl⟩ := wf
  have hylt : y < m.next := hlt y (by simp)
  have hprelt : ∀ a ∈ pre, a < m.next := fun a ha => hlt a (by simp [ha])
  rw [List.nodup_append] at hnd
  obtain ⟨-, -, hdisj⟩ := hnd
  have hypre : y ∉ pre := fun h => hdisj h (by simp)
  obtain ⟨st1, h1, hpar, -, -⟩ := Linked.node hl
  rw [hy] at h1
  cases h1
  have hnext : (dropChild m rest.head?).next = m.next := dropChild_next _ _
  refine Path.replace_tail hl ?_ ?_
  · intro a ha
    have hane : a ≠ m.next := ne_of_lt (hprelt a ha)
    have hay : a ≠ y := fun h => hypre (h ▸ ha)
    rw [attached_heap_other _ _ _ (by rw [hnext]; exact hane) hay]
    apply dropChild_heap_ne
    intro c hc hac
    have hcrest : c ∈ rest := List.mem_of_mem_head? hc
    exact hdisj ha (List.mem_cons_of_mem _ (by rw [hac]; exact hcrest))
  · have hyne : y ≠ (dropChild m rest.head?).next := by rw [hnext]; exact ne_of_lt hylt
    have e1 := attached_heap_at (dropChild m rest.head?) st s hyne
    have e2 := attached_heap_new (dropChild m rest.head?) y st s
    rw [hnext] at e1 e2
    refine ⟨?_, fun _ => ?_, ?_, fun h => absurd rfl h, trivial⟩
    · simp [parent, e1, hpar]
    · simp [child, e1]
    · simp [parent, e2]

/-- What the child slot of the new node holds after attaching: what the memory
held. -/
theorem attached_child_new (m : Machine) (d : Option Addr) (y : Addr) (st : State)
    (s : StateClass) :
    child (attached (dropChild m d) y st s) m.next =
      some (m.uninit m.next).m_subState := by
  have e2 := attached_heap_new (dropChild m d) y st s
  rw [dropChild_next, dropChild_uninit] at e2
  simp [child, e2]

/-- Attaching below `y`, after dropping what hung there, leaves a well-formed
chain that ends in the new node, when the memory of the new node held a null
child slot. -/
theorem attached_wellFormed {m : Machine} {pre rest : List Addr} {y : Addr} {st : State}
    (wf : WellFormed m (pre ++ y :: rest)) (hy : m.heap y = some st) (s : StateClass)
    (hslot : (m.uninit m.next).m_subState = none) :
    WellFormed (attached (dropChild m rest.head?) y st s) (pre ++ [y, m.next]) := by
  obtain ⟨-, hnd, hlt, hl⟩ := wf
  have hylt : y < m.next := hlt y (by simp)
  have hprelt : ∀ a ∈ pre, a < m.next := fun a ha => hlt a (by simp [ha])
  have hnd' := hnd
  rw [List.nodup_append] at hnd'
  obtain ⟨hndpre, hndyrest, hdisj⟩ := hnd'
  have hypre : y ∉ pre := fun h => hdisj h (by simp)
  have hyrest : y ∉ rest := (List.nodup_cons.mp hndyrest).1
  obtain ⟨st1, h1, hpar, -, -⟩ := Linked.node hl
  rw [hy] at h1
  cases h1
  refine ⟨by simp, ?_, ?_, ?_⟩
  · rw [List.nodup_append]
    refine ⟨hndpre, ?_, ?_⟩
    · simpa using ne_of_lt hylt
    · intro a ha hb
      simp only [List.mem_cons, List.mem_singleton, List.not_mem_nil, or_false] at hb
      rcases hb with rfl | rfl
      · exact hypre ha
      · exact absurd (hprelt _ ha) (lt_irrefl _)
  · intro a ha
    simp only [List.mem_append, List.mem_cons, List.mem_singleton, List.not_mem_nil,
      or_false] at ha
    have : a ≤ m.next := by
      rcases ha with ha | rfl | rfl
      · exact le_of_lt (hprelt a ha)
      · exact le_of_lt hylt
      · exact le_refl _
    show a < (dropChild m rest.head?).next + 1
    rw [dropChild_next]
    exact Nat.lt_succ_of_le this
  · have hnext : (dropChild m rest.head?).next = m.next := dropChild_next _ _
    refine Linked.replace_below hl ?_ ?_
    · intro a ha
      have hane : a ≠ m.next := ne_of_lt (hprelt a ha)
      have hay : a ≠ y := fun h => hypre (h ▸ ha)
      rw [attached_heap_other _ _ _ (by rw [hnext]; exact hane) hay]
      apply dropChild_heap_ne
      intro c hc hac
      have hcrest : c ∈ rest := List.mem_of_mem_head? hc
      exact hdisj ha (List.mem_cons_of_mem _ (by rw [hac]; exact hcrest))
    · have hyne : y ≠ (dropChild m rest.head?).next := by rw [hnext]; exact ne_of_lt hylt
      have e1 := attached_heap_at (dropChild m rest.head?) st s hyne
      have e2 := attached_heap_new (dropChild m rest.head?) y st s
      rw [hnext] at e1 e2
      rw [dropChild_uninit] at e2
      refine ⟨?_, ?_, ?_, ?_, trivial⟩
      · simp [parent, e1, hpar]
      · simp [child, e1]
      · simp [parent, e2]
      · simp [child, e2, hslot]

/-- What `enterState` does on a well-formed chain, from any node of it: it
attaches the copy below a node `y` that is active or the root and whose child
is missing or inactive, after deleting that child. -/
theorem enterState_spec {m : Machine} {l : List Addr} {a : Addr}
    (wf : WellFormed m l) (ha : a ∈ l) (s : StateClass) :
    ∃ pre y rest st, l = pre ++ y :: rest ∧ m.heap y = some st ∧
      (st.m_active = true ∨ pre = []) ∧
      (∀ c, rest.head? = some c → active m c = some false) ∧
      ∀ f, 2 * l.length ≤ f →
        enterState f m a s = some (attached (dropChild m rest.head?) y st s) := by
  obtain ⟨-, hnd, hlt, hl⟩ := wf
  obtain ⟨pre0, post0, hdec0⟩ := List.append_of_mem ha
  obtain ⟨pre1, z, post1, stz, hdec1, hz, hzroot, k, hk, hclimb⟩ :=
    enterState_climb hl s pre0 a post0 hdec0
  obtain ⟨pre2, y, rest, sty, hdec2, hy, hyroot, hdead, hdesc⟩ :=
    enterState_descend hl s post1 pre1 z stz hdec1 hz hzroot
  refine ⟨pre2, y, rest, sty, hdec2, hy, hyroot, hdead, ?_⟩
  intro f hf
  have hlen0 : l.length = pre0.length + (post0.length + 1) := by simp [hdec0]
  have hlen1 : l.length = pre1.length + (post1.length + 1) := by simp [hdec1]
  have hfk : f = (f - k) + k := by omega
  rw [hfk, hclimb (f - k), hdesc (f - k) (by omega)]
  have hylt : y < m.next := hlt y (by simp [hdec2])
  have hyrest : y ∉ rest := by
    have h := hnd
    rw [hdec2, List.nodup_append] at h
    exact (List.nodup_cons.mp h.2.1).1
  apply createSubState_eq
  · rw [dropChild_heap_ne m (fun c hc hyc => hyrest (by rw [hyc]; exact List.mem_of_mem_head? hc))]
    exact hy
  · rw [dropChild_next]
    exact ne_of_lt hylt

/-! ## enterState -/

/-- The closed form of `enterState` on a node with an empty child slot that is
active or has no parent. -/
theorem enterState_on_empty {m : Machine} {n : Addr} {st : State} (s : StateClass)
    (hx : m.heap n = some st) (hsub : st.m_subState = none)
    (hstay : st.m_active = true ∨ st.m_parentState = none) (hfresh : n ≠ m.next) :
    ∀ f, 1 ≤ f → enterState f m n s = some (attached m n st s) := by
  intro f hf
  obtain ⟨f, rfl⟩ : ∃ g, f = g + 1 := ⟨f - 1, by omega⟩
  rw [enterState_stay f s hx hstay, hsub]
  exact createSubState_eq s hx hfresh

/-- The closed form of `enterState` on a node that is active or has no parent
and whose child is inactive. -/
theorem enterState_on_inactive_child {m : Machine} {n c : Addr} {st stc : State}
    (s : StateClass) (hx : m.heap n = some st) (hsub : st.m_subState = some c)
    (hcx : m.heap c = some stc) (hc : stc.m_active = false)
    (hstay : st.m_active = true ∨ st.m_parentState = none) (hfresh : n ≠ m.next)
    (hnc : n ≠ c) :
    ∀ f, 1 ≤ f → enterState f m n s = some (attached (deleteState m c) n st s) := by
  intro f hf
  obtain ⟨f, rfl⟩ : ∃ g, f = g + 1 := ⟨f - 1, by omega⟩
  rw [enterState_stay f s hx hstay, hsub]
  simp only [hcx, hc]
  apply createSubState_eq
  · show (m.heap.set c none) n = some st
    rw [Heap.set_ne _ _ hnc]; exact hx
  · exact hfresh

/-- When the memory of the new node held a null child slot: on a well-formed
chain `l`, from any node `n` of it, `enterState` returns a machine in which the
chain from the same root is a non-empty initial part of `l` followed by the
fresh node `m.next`, which is the tail, active, the copy of `s`, with no
child. -/
theorem enterState_tail_when_slot_null (m : Machine) (l : List Addr) (n : Addr)
    (s : StateClass) (wf : WellFormed m l) (hn : n ∈ l)
    (hslot : (m.uninit m.next).m_subState = none) :
    ∃ m1 kept gone, l = kept ++ gone ∧ kept ≠ [] ∧ kept.head? = l.head? ∧
      (∀ f, 2 * l.length ≤ f → enterState f m n s = some m1) ∧
      WellFormed m1 (kept ++ [m.next]) ∧ m.next ∉ l ∧
      (m1.heap m.next).map State.cls = some s ∧
      active m1 m.next = some true ∧ child m1 m.next = some none := by
  obtain ⟨pre, y, rest, st, hdec, hy, -, -, hrun⟩ := enterState_spec wf hn s
  have e2 := attached_heap_new (dropChild m rest.head?) y st s
  rw [dropChild_next, dropChild_uninit] at e2
  refine ⟨attached (dropChild m rest.head?) y st s, pre ++ [y], rest, by simp [hdec],
    by simp, ?_, hrun, ?_, ?_, ?_, ?_, ?_⟩
  · rw [hdec]; cases pre <;> simp
  · have := attached_wellFormed (hdec ▸ wf) hy s hslot
    simpa using this
  · intro h
    exact lt_irrefl _ (wf.2.2.1 _ h)
  · simp [e2]
  · simp [active, e2]
  · simp [child, e2, hslot]

/-- C1, the code at a failing input: the root `0` alone, the free memory holding
the stale address 7.  `root.enterState(5)` returns; the new node `1` is the
active child of the root, but its own child slot holds 7, which `State()` and
`createSubState` left there: the new node is not a tail with no child, and the
next tick on the root dereferences the stale address and never returns. -/
theorem enterState_leaves_child_slot_unassigned :
    ∃ m1, (∀ f, 1 ≤ f → enterState f staleRoot 0 5 = some m1) ∧
      child m1 0 = some (some 1) ∧ active m1 1 = some true ∧
      parent m1 1 = some (some 0) ∧ child m1 1 = some (some 7) ∧ m1.heap 7 = none ∧
      ∀ f, execute f m1 0 = none :=
  ⟨attached staleRoot 0 (State.mk none none (some 100) true 7) 5,
    enterState_on_empty 5 (by decide) rfl (Or.inl rfl) (by decide),
    by decide, by decide, by decide, by decide, by decide,
    fun f => by rcases f with _ | _ | f <;> rfl⟩

/-- What `enterState` does on a node `n` that is active or has no parent and
whose child `c` is inactive: `c` is deleted, the path from the root becomes
`pre ++ [n, m.next]`, the new node is the active copy of `s`, the only hook
invoked is its `init`, and its child slot holds what the memory held. -/
theorem enterState_replaces_inactive_child (m : Machine) (pre : List Addr) (n c : Addr)
    (post : List Addr) (s : StateClass) (wf : WellFormed m (pre ++ n :: c :: post))
    (hn : active m n = some true ∨ parent m n = some none)
    (hc : active m c = some false) :
    ∃ m1, (∀ f, 1 ≤ f → enterState f m n s = some m1) ∧
      Path m1 none (pre ++ [n, m.next]) ∧
      child m1 n = some (some m.next) ∧
      (m1.heap m.next).map State.cls = some s ∧
      active m1 m.next = some true ∧
      child m1 m.next = some (m.uninit m.next).m_subState ∧
      m1.trace = m.trace ++ [Event.mk Hook.init m.next] ∧
      (∀ x ∈ c :: post, x ∉ pre ++ [n, m.next]) ∧ m1.heap c = none := by
  have wf0 := wf
  obtain ⟨-, hnd, hlt, hl⟩ := wf
  obtain ⟨st, hx, -, hsub, -⟩ := Linked.node hl
  have hl1 : Linked m none ((pre ++ [n]) ++ c :: post) := by simpa using hl
  obtain ⟨stc, hcx, -, -, -⟩ := Linked.node hl1
  have hstay : st.m_active = true ∨ st.m_parentState = none := by
    rcases hn with h | h
    · left; simpa [active, hx] using h
    · right; simpa [parent, hx] using h
  have hcact : stc.m_active = false := by simpa [active, hcx] using hc
  have hnlt : n < m.next := hlt n (by simp)
  have hclt : c < m.next := hlt c (by simp)
  have hnd1 := hnd
  rw [List.nodup_append] at hnd1
  obtain ⟨-, hnd2, hdisj⟩ := hnd1
  have hnc : n ≠ c := by
    intro h
    have := (List.nodup_cons.mp hnd2).1
    exact this (by simp [h])
  have e1 : (attached (deleteState m c) n st s).heap n =
      some { st with m_subState := some m.next } :=
    attached_heap_at (deleteState m c) st s (ne_of_lt hnlt)
  have e2 : (attached (deleteState m c) n st s).heap m.next = _ :=
    attached_heap_new (deleteState m c) n st s
  refine ⟨attached (deleteState m c) n st s,
    enterState_on_inactive_child s hx (by simpa using hsub) hcx hcact hstay (ne_of_lt hnlt) hnc,
    attached_path wf0 hx s, ?_, ?_, ?_, attached_child_new m (some c) n st s, rfl, ?_, ?_⟩
  · simp [child, e1]
  · simp [e2]
  · simp [active, e2]
  · intro x hx1 hx2
    simp only [List.mem_append, List.mem_cons, List.mem_singleton, List.not_mem_nil,
      or_false] at hx2
    rcases hx2 with h | rfl | rfl
    · exact hdisj h (List.mem_cons_of_mem _ hx1)
    · exact (List.nodup_cons.mp hnd2).1 hx1
    · exact lt_irrefl _ (hlt _ (by simp only [List.mem_append]; right; exact List.mem_cons_of_mem _ hx1))
  · rw [attached_heap_other (deleteState m c) st s (ne_of_lt hclt) (fun h => hnc h.symm)]
    show (m.heap.set c none) c = none
    simp

/-- C3, the code at a failing input: the chain root -> 1(active) -> 2(inactive)
-> 3, the free memory holding the stale address 9.  `enterState(5)` on node 1
deletes node 2, makes the new node `4` the active child of node 1 and invokes
only its `init`, but the child slot of the new node holds 9, not null: no
statement of the code assigns it. -/
theorem enterState_replace_leaves_slot_unassigned :
    ∃ m1, (∀ f, 1 ≤ f → enterState f stalePrunable 1 5 = some m1) ∧
      child m1 1 = some (some 4) ∧ m1.heap 2 = none ∧ active m1 4 = some true ∧
      m1.trace = [Event.mk Hook.init 4] ∧
      child m1 4 = some (some 9) ∧ m1.heap 9 = none :=
  ⟨attached (deleteState stalePrunable 2) 1 (State.mk (some 2) (some 0) (some 100) true 8) 5,
    enterState_on_inactive_child 5 (by decide) rfl
      (by decide : stalePrunable.heap 2 = some (State.mk (some 3) (some 1) (some 100) false 9))
      rfl (Or.inl rfl) (by decide) (by decide),
    by decide, by decide, by decide, by decide, by decide, by decide⟩

/-- C4 (attach on an empty slot): for a live node `n` with no child that is
active or has no parent, `enterState` makes the fresh node `m.next` the child
of `n`; the new node is the copy of `s`, it is active, its parent is `n`, its
context is the context of `n`, and the only hook invoked is its `init`, once.
No other object changes.  The child slot of the new node is the one member that
is not assigned: it holds what the memory held. -/
theorem enterState_attach_empty (m : Machine) (n : Addr) (s : StateClass)
    (hfresh : n < m.next) (hchild : child m n = some none)
    (hn : active m n = some true ∨ parent m n = some none) :
    ∃ m1, (∀ f, 1 ≤ f → enterState f m n s = some m1) ∧
      child m1 n = some (some m.next) ∧
      (m1.heap m.next).map State.cls = some s ∧
      active m1 m.next = some true ∧ parent m1 m.next = some (some n) ∧
      obj m1 m.next = obj m n ∧
      child m1 m.next = some (m.uninit m.next).m_subState ∧
      m1.trace = m.trace ++ [Event.mk Hook.init m.next] ∧
      (∀ x, x ≠ n → x ≠ m.next → m1.heap x = m.heap x) := by
  cases hx : m.heap n with
  | none => simp [child, hx] at hchild
  | some st =>
    have hsub : st.m_subState = none := by simpa [child, hx] using hchild
    have hstay : st.m_active = true ∨ st.m_parentState = none := by
      rcases hn with h | h
      · left; simpa [active, hx] using h
      · right; simpa [parent, hx] using h
    have e1 := attached_heap_at m st s (ne_of_lt hfresh)
    have e2 := attached_heap_new m n st s
    refine ⟨attached m n st s, enterState_on_empty s hx hsub hstay (ne_of_lt hfresh),
      ?_, ?_, ?_, ?_, ?_, ?_, rfl, ?_⟩
    · simp [child, e1]
    · simp [e2]
    · simp [active, e2]
    · simp [parent, e2]
    · simp [obj, e2, hx]
    · simp [child, e2]
    · intro x h1 h2
      exact attached_heap_other m st s h2 h1

/-- C4 at a root with no child: entering X gives root.child = X, X active,
X.parent = root. -/
theorem enterState_attach_empty_witness :
    0 < (mkChain [(false, 7)]).next ∧ child (mkChain [(false, 7)]) 0 = some none ∧
    (active (mkChain [(false, 7)]) 0 = some true ∨
      parent (mkChain [(false, 7)]) 0 = some none) ∧
    ∃ m1, (∀ f, 1 ≤ f → enterState f (mkChain [(false, 7)]) 0 8 = some m1) ∧
      child m1 0 = some (some (mkChain [(false, 7)]).next) ∧
      (m1.heap (mkChain [(false, 7)]).next).map State.cls = some 8 ∧
      active m1 (mkChain [(false, 7)]).next = some true ∧
      parent m1 (mkChain [(false, 7)]).next = some (some 0) ∧
      obj m1 (mkChain [(false, 7)]).next = obj (mkChain [(false, 7)]) 0 ∧
      child m1 (mkChain [(false, 7)]).next =
        some ((mkChain [(false, 7)]).uninit (mkChain [(false, 7)]).next).m_subState ∧
      m1.trace = (mkChain [(false, 7)]).trace ++
        [Event.mk Hook.init (mkChain [(false, 7)]).next] ∧
      (∀ x, x ≠ 0 → x ≠ (mkChain [(false, 7)]).next →
        m1.heap x = (mkChain [(false, 7)]).heap x) :=
  ⟨by decide, by decide, by decide,
    enterState_attach_empty (mkChain [(false, 7)]) 0 8 (by decide) (by decide) (by decide)⟩

/-- C9 (bubble upward): for a node `n` of a well-formed chain that is inactive
and has the parent `p`, `n.enterState(s)` is `p.enterState(s)` with one more
stack frame: both return the same machine (same heap, same hook trace), and in
it the parent `q` of the new node is active or has no parent, so the new node
is not attached below an inactive node that has a parent. -/
theorem enterState_bubble_upward (m : Machine) (l : List Addr) (n p : Addr) (s : StateClass)
    (wf : WellFormed m l) (hn : n ∈ l) (hact : active m n = some false)
    (hp : parent m n = some (some p)) :
    p ∈ l ∧ (∀ f, enterState (f + 1) m n s = enterState f m p s) ∧
    ∃ m1 q, (∀ f, 2 * l.length ≤ f →
        enterState f m p s = some m1 ∧ enterState f m n s = some m1) ∧
      parent m1 m.next = some (some q) ∧
      (active m1 q = some true ∨ parent m1 q = some none) := by
  obtain ⟨pre0, post0, hdec0⟩ := List.append_of_mem hn
  obtain ⟨stn, hx, hpar, -, -⟩ := Linked.node (hdec0 ▸ wf.2.2.2)
  have hact1 : stn.m_active = false := by simpa [active, hx] using hact
  have hp1 : stn.m_parentState = some p := by simpa [parent, hx] using hp
  have hpl : p ∈ l := by
    rcases parentOf_nil_or_some none pre0 with ⟨-, h2⟩ | ⟨p1, h1, h2⟩
    · rw [hpar, h2] at hp1; cases hp1
    · rw [hpar, h1] at hp1
      cases hp1
      rw [hdec0]; simp [h2]
  have hstep : ∀ f, enterState (f + 1) m n s = enterState f m p s :=
    fun f => enterState_up f s hx hact1 hp1
  obtain ⟨pre, y, rest, st, hdec, hy, hroot, -, hrun⟩ := enterState_spec wf hpl s
  obtain ⟨pre2, y2, rest2, st2, -, -, -, -, hrun2⟩ := enterState_spec wf hn s
  obtain ⟨st1, h1, hypar, -, -⟩ := Linked.node (hdec ▸ wf.2.2.2)
  rw [hy] at h1
  cases h1
  have hylt : y < m.next := wf.2.2.1 y (by simp [hdec])
  have hne : y ≠ (dropChild m rest.head?).next := by
    rw [dropChild_next]; exact ne_of_lt hylt
  have e1 := attached_heap_at (dropChild m rest.head?) st s hne
  have e2 := attached_heap_new (dropChild m rest.head?) y st s
  rw [dropChild_next] at e2
  have hsame : attached (dropChild m rest2.head?) y2 st2 s =
      attached (dropChild m rest.head?) y st s := by
    have a1 := hrun2 (2 * l.length + 1) (by omega)
    rw [hstep, hrun (2 * l.length) (le_refl _)] at a1
    exact (Option.some.inj a1).symm
  refine ⟨hpl, hstep, attached (dropChild m rest.head?) y st s, y, ?_, ?_, ?_⟩
  · intro f hf
    exact ⟨hrun f hf, hsame ▸ hrun2 f hf⟩
  · simp [parent, e2]
  · rcases hroot with h | h
    · left; simp [active, e1, h]
    · right
      rw [h] at hypar
      simp [parent, e1, hypar, parentOf]

/-- C9 at root -> 1(active) -> 2(inactive), called on node 2 with parent 1. -/
theorem enterState_bubble_upward_witness :
    WellFormed (mkChain [(true, 7), (true, 8), (false, 9)]) [0, 1, 2] ∧ 2 ∈ [0, 1, 2] ∧
    active (mkChain [(true, 7), (true, 8), (false, 9)]) 2 = some false ∧
    parent (mkChain [(true, 7), (true, 8), (false, 9)]) 2 = some (some 1) ∧
    (1 ∈ [0, 1, 2] ∧
     (∀ f, enterState (f + 1) (mkChain [(true, 7), (true, 8), (false, 9)]) 2 5 =
        enterState f (mkChain [(true, 7), (true, 8), (false, 9)]) 1 5) ∧
     ∃ m1 q, (∀ f, 2 * ([0, 1, 2] : List Addr).length ≤ f →
        enterState f (mkChain [(true, 7), (true, 8), (false, 9)]) 1 5 = some m1 ∧
        enterState f (mkChain [(true, 7), (true, 8), (false, 9)]) 2 5 = some m1) ∧
      parent m1 (mkChain [(true, 7), (true, 8), (false, 9)]).next = some (some q) ∧
      (active m1 q = some true ∨ parent m1 q = some none)) :=
  ⟨by decide, by decide, by decide, by decide,
    enterState_bubble_upward (mkChain [(true, 7), (true, 8), (false, 9)]) [0, 1, 2] 2 1 5
      (by decide) (by decide) (by decide) (by decide)⟩

/-- C10 (totality of enterState): on a well-formed chain `l`, from any node of
it and for any prototype class, `enterState` returns a machine as soon as the
call stack may hold `2 * l.length` frames, and the machine returned does not
depend on how many more frames are available: the climb through inactive nodes
and the descent through active children cannot alternate. -/
theorem enterState_total (m : Machine) (l : List Addr) (n : Addr) (s : StateClass)
    (wf : WellFormed m l) (hn : n ∈ l) :
    ∃ m1, ∀ f, 2 * l.length ≤ f → enterState f m n s = some m1 := by
  obtain ⟨pre, y, rest, st, -, -, -, -, hrun⟩ := enterState_spec wf hn s
  exact ⟨_, hrun⟩

/-- C10 at root(inactive) -> 1(active) -> 2(inactive) -> 3(active), from node 2. -/
theorem enterState_total_witness :
    WellFormed (mkChain [(false, 7), (true, 8), (false, 9), (true, 6)]) [0, 1, 2, 3] ∧
    2 ∈ [0, 1, 2, 3] ∧
    ∃ m1, ∀ f, 2 * ([0, 1, 2, 3] : List Addr).length ≤ f →
      enterState f (mkChain [(false, 7), (true, 8), (false, 9), (true, 6)]) 2 5 = some m1 :=
  ⟨by decide, by decide,
    enterState_total (mkChain [(false, 7), (true, 8), (false, 9), (true, 6)]) [0, 1, 2, 3] 2 5
      (by decide) (by decide)⟩

/-! ## endState -/

/-- Following child pointers from a node determines the path. -/
theorem Linked.unique {m : Machine} {p1 p2 : Option Addr} {l1 l2 : List Addr}
    (h1 : Linked m p1 l1) (h2 : Linked m p2 l2) (hh : l1.head? = l2.head?) : l1 = l2 := by
  induction l1 generalizing p1 p2 l2 with
  | nil =>
    cases l2 with
    | nil => rfl
    | cons b r2 => simp at hh
  | cons a r1 ih =>
    cases l2 with
    | nil => simp at hh
    | cons b r2 =>
      simp only [List.head?_cons, Option.some.injEq] at hh
      subst hh
      obtain ⟨-, c1, t1⟩ := h1
      obtain ⟨-, c2, t2⟩ := h2
      rw [c1] at c2
      rw [ih t1 t2 (Option.some.inj c2)]

/-- A linked path visits no node twice. -/
theorem Linked.nodup {m : Machine} {par : Option Addr} {l : List Addr}
    (h : Linked m par l) : l.Nodup := by
  induction l generalizing par with
  | nil => exact List.nodup_nil
  | cons a rest ih =>
    obtain ⟨-, hc, ht⟩ := h
    refine List.nodup_cons.mpr ⟨?_, ih ht⟩
    intro ha
    obtain ⟨s1, s2, hdec⟩ := List.append_of_mem ha
    obtain ⟨st, hx, -, hsub, ht2⟩ := Linked.node (hdec ▸ ht)
    have hhead : rest.head? = s2.head? := by
      simp only [child, hx, Option.map_some', Option.some.injEq] at hc
      rw [← hc, hsub]
    have := Linked.unique ht ht2 hhead
    have hlen : rest.length = s2.length := by rw [this]
    rw [hdec] at hlen
    simp at hlen
    omega

/-- What `endState` does on a linked path, from its first node, with what the
`finalize` hooks observe. -/
theorem endState_full {m : Machine} :
    ∀ (l : List Addr) (n0 : Addr) (par : Option Addr), Linked m par (n0 :: l) →
      ∃ m1, (∀ f, (n0 :: l).length ≤ f → endState f m n0 = some m1) ∧
        m1.trace = m.trace ++ (n0 :: l).reverse.map (Event.mk Hook.finalize) ∧
        m1.next = m.next ∧
        (∀ x, m1.heap x =
          if x ∈ n0 :: l then (m.heap x).map (fun st => { st with m_active := false })
          else m.heap x) ∧
        m1.observed = m.observed ++
          (n0 :: l).reverse.map (fun a => (Event.mk Hook.finalize a, false)) ∧
        m1.uninit = m.uninit := by
  intro l
  induction l with
  | nil =>
    intro n0 par h
    obtain ⟨st, hx, -, hsub, -⟩ := Linked.head h
    simp only [List.head?_nil] at hsub
    refine ⟨{ m with heap := m.heap.set n0 (some { st with m_active := false }),
                     trace := m.trace ++ [Event.mk Hook.finalize n0],
                     observed := m.observed ++ [(Event.mk Hook.finalize n0, false)] },
      ?_, by simp, rfl, ?_, by simp, rfl⟩
    · intro f hf
      obtain ⟨f, rfl⟩ : ∃ g, f = g + 1 := ⟨f - 1, by simp at hf; omega⟩
      rw [endState]
      simp [hx, hsub, finalizeState, modify, callHook]
    · intro x
      by_cases hxn : x = n0
      · subst hxn; simp [hx]
      · simp [Heap.set, hxn]
  | cons c r ih =>
    intro n0 par h
    obtain ⟨st, hx, -, hsub, ht⟩ := Linked.head h
    simp only [List.head?_cons] at hsub
    obtain ⟨m1, hrun, htr, hnx, hheap, hobs, hun⟩ := ih c (some n0) ht
    have h1 : m1.heap n0 =
        some (if n0 ∈ c :: r then { st with m_active := false } else st) := by
      rw [hheap n0]
      split <;> simp [hx]
    refine ⟨{ m1 with heap := m1.heap.set n0 (some { st with m_active := false }),
                      trace := m1.trace ++ [Event.mk Hook.finalize n0],
                      observed := m1.observed ++ [(Event.mk Hook.finalize n0, false)] },
      ?_, ?_, hnx, ?_, ?_, hun⟩
    · intro f hf
      obtain ⟨f, rfl⟩ : ∃ g, f = g + 1 := ⟨f - 1, by simp at hf; omega⟩
      rw [endState]
      simp only [hx, hsub, hrun f (by simp at hf ⊢; omega)]
      simp only [finalizeState, modify, callHook, h1, Heap.set_same]
      split <;> simp [hsub]
    · simp [htr]
    · intro x
      by_cases hxn : x = n0
      · subst hxn; simp [hx]
      · simp only [Heap.set, hxn, if_false, hheap x, List.mem_cons, false_or]
    · simp [hobs]

/-- What `endState` does on a linked path, from its first node. -/
theorem endState_spec {m : Machine} :
    ∀ (l : List Addr) (n0 : Addr) (par : Option Addr), Linked m par (n0 :: l) →
      ∃ m1, (∀ f, (n0 :: l).length ≤ f → endState f m n0 = some m1) ∧
        m1.trace = m.trace ++ (n0 :: l).reverse.map (Event.mk Hook.finalize) ∧
        m1.next = m.next ∧
        ∀ x, m1.heap x =
          if x ∈ n0 :: l then (m.heap x).map (fun st => { st with m_active := false })
          else m.heap x := by
  intro l n0 par h
  obtain ⟨m1, h1, h2, h3, h4, -, -⟩ := endState_full l n0 par h
  exact ⟨m1, h1, h2, h3, h4⟩

/-- C5 (depth-first teardown): on a chain `n0 -> n1 -> ... -> nk` (any length,
any active flags, `n0` with any parent), `n0.endState()` returns, the hooks it
invokes are exactly `finalize` on `nk`, ..., `n1`, `n0` in that order, no node
occurring twice, and afterwards every node of the chain is inactive. -/
theorem endState_depth_first (m : Machine) (par : Option Addr) (n0 : Addr) (rest : List Addr)
    (hl : Linked m par (n0 :: rest)) :
    ∃ m1, (∀ f, (n0 :: rest).length ≤ f → endState f m n0 = some m1) ∧
      m1.trace = m.trace ++ (n0 :: rest).reverse.map (Event.mk Hook.finalize) ∧
      ((n0 :: rest).reverse.map (Event.mk Hook.finalize)).Nodup ∧
      ∀ a ∈ n0 :: rest, active m1 a = some false := by
  obtain ⟨m1, hrun, htr, -, hheap⟩ := endState_spec rest n0 par hl
  refine ⟨m1, hrun, htr, ?_, ?_⟩
  · refine List.Nodup.map ?_ (List.nodup_reverse.mpr (Linked.nodup hl))
    intro a b hab
    exact (Event.mk.injEq _ _ _ _ ▸ hab : _ ∧ a = b).2
  · intro a ha
    obtain ⟨s1, s2, hdec⟩ := List.append_of_mem ha
    obtain ⟨st, hx, -, -, -⟩ := Linked.node (hdec ▸ hl)
    simp [active, hheap a, ha, hx]

/-- C5 at root -> A -> B -> C: finalize runs on C, B, A, root. -/
theorem endState_depth_first_witness :
    Linked (mkChain [(true, 7), (true, 8), (false, 9), (true, 6)]) none (0 :: [1, 2, 3]) ∧
    ∃ m1, (∀ f, (0 :: [1, 2, 3]).length ≤ f →
        endState f (mkChain [(true, 7), (true, 8), (false, 9), (true, 6)]) 0 = some m1) ∧
      m1.trace = (mkChain [(true, 7), (true, 8), (false, 9), (true, 6)]).trace ++
        (0 :: [1, 2, 3]).reverse.map (Event.mk Hook.finalize) ∧
      ((0 :: [1, 2, 3]).reverse.map (Event.mk Hook.finalize)).Nodup ∧
      ∀ a ∈ 0 :: [1, 2, 3], active m1 a = some false :=
  ⟨by decide,
    endState_depth_first (mkChain [(true, 7), (true, 8), (false, 9), (true, 6)]) none 0 [1, 2, 3]
      (by decide)⟩

/-! ## execute -/

/-- One tick of a node that has no child. -/
theorem execute_leaf {m : Machine} {n : Addr} {st : State} (f : Nat)
    (hx : m.heap n = some st) (hsub : st.m_subState = none) :
    execute (f + 1) m n =
      some { m with
        trace := m.trace ++ [Event.mk Hook.preUpdate n, Event.mk Hook.postUpdate n]
        observed := m.observed ++
          [(Event.mk Hook.preUpdate n, st.m_active),
           (Event.mk Hook.postUpdate n, st.m_active)] } := by
  rw [execute]
  simp [preUpdateState, postUpdateState, callHook, hx, hsub]

/-- One tick of a node whose child is inactive: the child is deleted and the
slot cleared. -/
theorem execute_prune {m : Machine} {n c : Addr} {st stc : State} (f : Nat)
    (hx : m.heap n = some st) (hsub : st.m_subState = some c)
    (hcx : m.heap c = some stc) (hc : stc.m_active = false) (hne : n ≠ c) :
    execute (f + 1) m n =
      some { m with
        heap := (m.heap.set c none).set n (some { st with m_subState := none })
        trace := m.trace ++ [Event.mk Hook.preUpdate n, Event.mk Hook.postUpdate n]
        observed := m.observed ++
          [(Event.mk Hook.preUpdate n, st.m_active),
           (Event.mk Hook.postUpdate n, st.m_active)] } := by
  rw [execute]
  simp [preUpdateState, postUpdateState, callHook, hx, hsub, hcx, hc, setState, modify,
    deleteState, Heap.set_ne _ _ hne]

/-- One tick of a node whose child is active. -/
theorem execute_active {m : Machine} {n c : Addr} {st stc : State} (f : Nat)
    (hx : m.heap n = some st) (hsub : st.m_subState = some c)
    (hcx : m.heap c = some stc) (hc : stc.m_active = true) :
    execute (f + 1) m n =
      match execute f { m with
          trace := m.trace ++ [Event.mk Hook.preUpdate n]
          observed := m.observed ++ [(Event.mk Hook.preUpdate n, st.m_active)] } c with
      | none => none
      | some m2 => postUpdateState m2 n := by
  rw [execute]
  simp [preUpdateState, callHook, hx, hsub, hcx, hc]

/-- A tick on a path whose nodes below the first are all active. -/
theorem execute_spec_active :
    ∀ (rest : List Addr) (m : Machine) (n0 : Addr) (par : Option Addr),
      Linked m par (n0 :: rest) → (∀ a ∈ rest, active m a = some true) →
      ∀ f, (n0 :: rest).length ≤ f →
        execute f m n0 =
          some { m with
            trace := m.trace ++ (n0 :: rest).map (Event.mk Hook.preUpdate) ++
              (n0 :: rest).reverse.map (Event.mk Hook.postUpdate)
            observed := m.observed ++ seen m Hook.preUpdate (n0 :: rest) ++
              seen m Hook.postUpdate (n0 :: rest).reverse } := by
  intro rest
  induction rest with
  | nil =>
    intro m n0 par h _ f hf
    obtain ⟨f, rfl⟩ : ∃ g, f = g + 1 := ⟨f - 1, by simp at hf; omega⟩
    obtain ⟨st, hx, -, hsub, -⟩ := Linked.head h
    rw [execute_leaf f hx (by simpa using hsub)]
    simp [seen, active, hx]
  | cons c r ih =>
    intro m n0 par h hact f hf
    obtain ⟨f, rfl⟩ : ∃ g, f = g + 1 := ⟨f - 1, by simp at hf; omega⟩
    obtain ⟨st, hx, -, hsub, ht⟩ := Linked.head h
    obtain ⟨stc, hcx, -, -, -⟩ := Linked.head ht
    have hc : stc.m_active = true := by
      have := hact c (by simp)
      simpa [active, hcx] using this
    rw [execute_active f hx (by simpa using hsub) hcx hc]
    have ht1 : Linked { m with
          trace := m.trace ++ [Event.mk Hook.preUpdate n0]
          observed := m.observed ++ [(Event.mk Hook.preUpdate n0, st.m_active)] }
        (some n0) (c :: r) := Linked.frame ht (fun _ _ => rfl)
    rw [ih _ c (some n0) ht1 (fun a ha => hact a (by simp [ha])) f
      (by simp at hf ⊢; omega)]
    simp [postUpdateState, callHook, hx, seen, active]

/-- C6 (tick propagation order): on a chain `n0 -> n1 -> ... -> nk` whose nodes
`n1..nk` are all active, `n0.execute()` returns the same machine (same heap,
hence same nodes, links and active flags, same allocator cursor) with the trace
extended by `preUpdate` on `n0, ..., nk` followed by `postUpdate` on
`nk, ..., n0`. -/
theorem execute_propagation_order (m : Machine) (par : Option Addr) (n0 : Addr)
    (rest : List Addr) (hl : Linked m par (n0 :: rest))
    (hact : ∀ a ∈ rest, active m a = some true) :
    ∃ m1, (∀ f, (n0 :: rest).length ≤ f → execute f m n0 = some m1) ∧
      m1.heap = m.heap ∧ m1.next = m.next ∧
      m1.trace = m.trace ++ (n0 :: rest).map (Event.mk Hook.preUpdate) ++
        (n0 :: rest).reverse.map (Event.mk Hook.postUpdate) :=
  ⟨_, execute_spec_active rest m n0 par hl hact, rfl, rfl, rfl⟩

/-- C6 at root -> A: root.pre, A.pre, A.post, root.post. -/
theorem execute_propagation_order_witness :
    Linked (mkChain [(false, 7), (true, 8)]) none (0 :: [1]) ∧
    (∀ a ∈ [1], active (mkChain [(false, 7), (true, 8)]) a = some true) ∧
    ∃ m1, (∀ f, (0 :: [1]).length ≤ f →
        execute f (mkChain [(false, 7), (true, 8)]) 0 = some m1) ∧
      m1.heap = (mkChain [(false, 7), (true, 8)]).heap ∧
      m1.next = (mkChain [(false, 7), (true, 8)]).next ∧
      m1.trace = (mkChain [(false, 7), (true, 8)]).trace ++
        (0 :: [1]).map (Event.mk Hook.preUpdate) ++
        (0 :: [1]).reverse.map (Event.mk Hook.postUpdate) :=
  ⟨by decide, by decide,
    execute_propagation_order (mkChain [(false, 7), (true, 8)]) none 0 [1]
      (by decide) (by decide)⟩

/-- C7 (pruning on tick): when the child `c` of `n` is inactive, `n.execute()`
invokes exactly `n.preUpdate` then `n.postUpdate` (no hook of `c` or of a node
beneath it), deletes `c` and clears the child slot, so the path from `n` is
`n` alone whatever the flags beneath `c` were; no other live object changes.  A
second `n.execute()` leaves the heap as it is and again invokes only the two
hooks of `n`. -/
theorem execute_prunes_inactive_child (m : Machine) (par : Option Addr) (n c : Addr)
    (post : List Addr) (hl : Linked m par (n :: c :: post))
    (hc : active m c = some false) :
    ∃ m1, (∀ f, 1 ≤ f → execute f m n = some m1) ∧
      m1.trace = m.trace ++ [Event.mk Hook.preUpdate n, Event.mk Hook.postUpdate n] ∧
      child m1 n = some none ∧ Linked m1 par [n] ∧ (∀ x ∈ c :: post, x ≠ n) ∧
      m1.heap c = none ∧ (∀ x, x ≠ n → x ≠ c → m1.heap x = m.heap x) ∧
      active m1 n = active m n ∧ m1.next = m.next ∧
      ∃ m2, (∀ f, 1 ≤ f → execute f m1 n = some m2) ∧
        m2.heap = m1.heap ∧ m2.next = m1.next ∧
        m2.trace = m1.trace ++ [Event.mk Hook.preUpdate n, Event.mk Hook.postUpdate n] := by
  have hnd := Linked.nodup hl
  obtain ⟨st, hx, hpar, hsub, ht⟩ := Linked.head hl
  obtain ⟨stc, hcx, -, -, -⟩ := Linked.head ht
  have hcact : stc.m_active = false := by simpa [active, hcx] using hc
  have hnotin : n ∉ c :: post := (List.nodup_cons.mp hnd).1
  have hne : n ≠ c := fun h => hnotin (by simp [h])
  have hn1 : ((m.heap.set c none).set n (some { st with m_subState := none })) n =
      some { st with m_subState := none } := Heap.set_same _ _ _
  let m1 : Machine :=
    { m with
      heap := (m.heap.set c none).set n (some { st with m_subState := none })
      trace := m.trace ++ [Event.mk Hook.preUpdate n, Event.mk Hook.postUpdate n]
      observed := m.observed ++
        [(Event.mk Hook.preUpdate n, st.m_active), (Event.mk Hook.postUpdate n, st.m_active)] }
  refine ⟨m1, ?_, rfl, ?_, ?_, ?_, ?_, ?_, ?_, rfl,
    { m1 with
      trace := m1.trace ++ [Event.mk Hook.preUpdate n, Event.mk Hook.postUpdate n]
      observed := m1.observed ++
        [(Event.mk Hook.preUpdate n, st.m_active), (Event.mk Hook.postUpdate n, st.m_active)] },
    ?_, rfl, rfl, rfl⟩
  · intro f hf
    obtain ⟨f, rfl⟩ : ∃ g, f = g + 1 := ⟨f - 1, by omega⟩
    exact execute_prune f hx (by simpa using hsub) hcx hcact hne
  · simp [child, hn1]
  · refine ⟨?_, ?_, trivial⟩
    · simpa [parent, hn1, parentOf] using hpar
    · simp [child, hn1]
  · intro x hx1 hx2
    exact hnotin (hx2 ▸ hx1)
  · show ((m.heap.set c none).set n _) c = none
    rw [Heap.set_ne _ _ (fun h => hne h.symm)]
    simp
  · intro x h1 h2
    show ((m.heap.set c none).set n _) x = m.heap x
    rw [Heap.set_ne _ _ h1, Heap.set_ne _ _ h2]
  · simp [active, hn1, hx]
  · intro f hf
    obtain ⟨f, rfl⟩ : ∃ g, f = g + 1 := ⟨f - 1, by omega⟩
    exact @execute_leaf m1 n { st with m_subState := none } f hn1 rfl

/-- C7 at root -> X -> Y with X inactive and Y still active. -/
theorem execute_prunes_inactive_child_witness :
    Linked (mkChain [(true, 7), (false, 8), (true, 9)]) none (0 :: 1 :: [2]) ∧
    active (mkChain [(true, 7), (false, 8), (true, 9)]) 1 = some false ∧
    ∃ m1, (∀ f, 1 ≤ f → execute f (mkChain [(true, 7), (false, 8), (true, 9)]) 0 = some m1) ∧
      m1.trace = (mkChain [(true, 7), (false, 8), (true, 9)]).trace ++
        [Event.mk Hook.preUpdate 0, Event.mk Hook.postUpdate 0] ∧
      child m1 0 = some none ∧ Linked m1 none [0] ∧ (∀ x ∈ 1 :: [2], x ≠ 0) ∧
      m1.heap 1 = none ∧
      (∀ x, x ≠ 0 → x ≠ 1 → m1.heap x = (mkChain [(true, 7), (false, 8), (true, 9)]).heap x) ∧
      active m1 0 = active (mkChain [(true, 7), (false, 8), (true, 9)]) 0 ∧
      m1.next = (mkChain [(true, 7), (false, 8), (true, 9)]).next ∧
      ∃ m2, (∀ f, 1 ≤ f → execute f m1 0 = some m2) ∧
        m2.heap = m1.heap ∧ m2.next = m1.next ∧
        m2.trace = m1.trace ++ [Event.mk Hook.preUpdate 0, Event.mk Hook.postUpdate 0] :=
  ⟨by decide, by decide,
    execute_prunes_inactive_child (mkChain [(true, 7), (false, 8), (true, 9)]) none 0 1 [2]
      (by decide) (by decide)⟩

/-- The part of a linked path below some of its nodes is linked. -/
theorem Linked.suffix {m : Machine} {par : Option Addr} {pre post : List Addr}
    (h : Linked m par (pre ++ post)) : Linked m (parentOf par pre) post := by
  induction pre generalizing par with
  | nil => simpa [parentOf] using h
  | cons a rest ih =>
    obtain ⟨-, -, h3⟩ := h
    simpa [parentOf] using ih h3

/-- A path stays linked in any machine that keeps the parent and the child of
each of its nodes. -/
theorem Linked.of_fields {m m1 : Machine} {par : Option Addr} {l : List Addr}
    (h : Linked m par l)
    (hsame : ∀ a ∈ l, parent m1 a = parent m a ∧ child m1 a = child m a) :
    Linked m1 par l := by
  induction l generalizing par with
  | nil => trivial
  | cons a rest ih =>
    obtain ⟨h1, h2, h3⟩ := h
    obtain ⟨e1, e2⟩ := hsame a (by simp)
    exact ⟨e1 ▸ h1, e2 ▸ h2, ih h3 (fun b hb => hsame b (by simp [hb]))⟩

/-- Every node of a linked path is a live object. -/
theorem Linked.live {m : Machine} {par : Option Addr} {l : List Addr} {a : Addr}
    (h : Linked m par l) (ha : a ∈ l) : ∃ st, m.heap a = some st := by
  obtain ⟨s1, s2, hdec⟩ := List.append_of_mem ha
  obtain ⟨st, hx, -⟩ := Linked.node (hdec ▸ h)
  exact ⟨st, hx⟩

/-- What `endState` does from any node of a well-formed chain. -/
theorem endState_frame {m : Machine} {pre post : List Addr} {n : Addr}
    (wf : WellFormed m (pre ++ n :: post)) :
    ∃ m1, (∀ f, (n :: post).length ≤ f → endState f m n = some m1) ∧
      WellFormed m1 (pre ++ n :: post) ∧ m1.next = m.next ∧
      m1.trace = m.trace ++ (n :: post).reverse.map (Event.mk Hook.finalize) ∧
      (∀ x, child m1 x = child m x ∧ parent m1 x = parent m x ∧ obj m1 x = obj m x ∧
        (m1.heap x).map State.cls = (m.heap x).map State.cls) ∧
      (∀ x, x ∉ n :: post → m1.heap x = m.heap x) ∧
      (∀ x ∈ n :: post, active m1 x = some false) := by
  obtain ⟨hne, hnd, hlt, hl⟩ := wf
  have hsuf : Linked m (parentOf none pre) (n :: post) := Linked.suffix hl
  obtain ⟨m1, hrun, htr, hnx, hheap⟩ := endState_spec post n _ hsuf
  have hfields : ∀ x, child m1 x = child m x ∧ parent m1 x = parent m x ∧
      obj m1 x = obj m x ∧ (m1.heap x).map State.cls = (m.heap x).map State.cls := by
    intro x
    rw [child, child, parent, parent, obj, obj, hheap x]
    split <;> cases m.heap x <;> simp
  refine ⟨m1, hrun, ⟨hne, hnd, fun a ha => hnx ▸ hlt a ha, ?_⟩, hnx, htr, hfields, ?_, ?_⟩
  · exact Linked.of_fields hl (fun a _ => ⟨(hfields a).2.1, (hfields a).1⟩)
  · intro x hx
    rw [hheap x, if_neg hx]
  · intro x hx
    obtain ⟨st, hst⟩ := Linked.live hsuf hx
    rw [active, hheap x, if_pos hx, hst]
    rfl

/-- C11 (lazy, not eager, removal): from any node `n` of a well-formed chain,
`n.endState()` returns a machine with the same chain: every object keeps its
child, its parent, its context and its class, no object is created or deleted,
the nodes above `n` keep their records and the nodes from `n` down are
inactive.  A node that `endState` deactivates is therefore still its owner's
child afterwards. -/
theorem endState_changes_flags_only (m : Machine) (pre post : List Addr) (n : Addr)
    (wf : WellFormed m (pre ++ n :: post)) :
    ∃ m1, (∀ f, (pre ++ n :: post).length ≤ f → endState f m n = some m1) ∧
      WellFormed m1 (pre ++ n :: post) ∧ m1.next = m.next ∧
      (∀ x, child m1 x = child m x ∧ parent m1 x = parent m x ∧ obj m1 x = obj m x ∧
        (m1.heap x).map State.cls = (m.heap x).map State.cls) ∧
      (∀ x, x ∉ n :: post → m1.heap x = m.heap x) ∧
      (∀ x ∈ n :: post, active m1 x = some false) ∧
      (∀ p, parent m n = some (some p) → child m1 p = some (some n)) := by
  obtain ⟨m1, hrun, hwf, hnx, -, hfields, hout, hin⟩ := endState_frame wf
  refine ⟨m1, fun f hf => hrun f (by simp at hf ⊢; omega), hwf, hnx, hfields, hout, hin, ?_⟩
  intro p hp
  obtain ⟨st, hx, hpar, -, -⟩ := Linked.node wf.2.2.2
  have hp1 : parentOf none pre = some p := by
    rw [← hpar]; simpa [parent, hx] using hp
  rcases List.eq_nil_or_concat pre with h | ⟨front, q, h⟩
  · rw [h] at hp1; cases hp1
  · rw [List.concat_eq_append] at h
    subst h
    rw [parentOf_append_singleton] at hp1
    cases hp1
    have hl : Linked m none (front ++ p :: (n :: post)) := by simpa using wf.2.2.2
    obtain ⟨stp, hpx, -, hsub, -⟩ := Linked.node hl
    rw [(hfields p).1]
    simp [child, hpx, hsub]

/-- C11 at root -> 1 -> 2 -> 3, `endState` on node 1. -/
theorem endState_changes_flags_only_witness :
    WellFormed (mkChain [(true, 7), (true, 8), (true, 9), (true, 6)]) ([0] ++ 1 :: [2, 3]) ∧
    ∃ m1, (∀ f, ([0] ++ 1 :: [2, 3]).length ≤ f →
        endState f (mkChain [(true, 7), (true, 8), (true, 9), (true, 6)]) 1 = some m1) ∧
      WellFormed m1 ([0] ++ 1 :: [2, 3]) ∧
      m1.next = (mkChain [(true, 7), (true, 8), (true, 9), (true, 6)]).next ∧
      (∀ x, child m1 x = child (mkChain [(true, 7), (true, 8), (true, 9), (true, 6)]) x ∧
        parent m1 x = parent (mkChain [(true, 7), (true, 8), (true, 9), (true, 6)]) x ∧
        obj m1 x = obj (mkChain [(true, 7), (true, 8), (true, 9), (true, 6)]) x ∧
        (m1.heap x).map State.cls =
          ((mkChain [(true, 7), (true, 8), (true, 9), (true, 6)]).heap x).map State.cls) ∧
      (∀ x, x ∉ 1 :: [2, 3] →
        m1.heap x = (mkChain [(true, 7), (true, 8), (true, 9), (true, 6)]).heap x) ∧
      (∀ x ∈ 1 :: [2, 3], active m1 x = some false) ∧
      (∀ p, parent (mkChain [(true, 7), (true, 8), (true, 9), (true, 6)]) 1 = some (some p) →
        child m1 p = some (some 1)) :=
  ⟨by decide,
    endState_changes_flags_only (mkChain [(true, 7), (true, 8), (true, 9), (true, 6)])
      [0] [2, 3] 1 (by decide)⟩

/-- C12 (endState is not guarded by the active flag): on a chain
`n -> ... -> nk` whose first node `n` is already inactive, `n.endState()` still
invokes `finalize` on `nk, ..., n`; a second `n.endState()` invokes the same
hooks again, so that each node's `finalize` has run exactly twice, and it
leaves the heap and the allocator cursor as the first call left them. -/
theorem endState_not_guarded (m : Machine) (par : Option Addr) (n : Addr)
    (rest : List Addr) (hl : Linked m par (n :: rest))
    (_hin : active m n = some false) :
    ∃ m1 m2, (∀ f, (n :: rest).length ≤ f → endState f m n = some m1) ∧
      m1.trace = m.trace ++ (n :: rest).reverse.map (Event.mk Hook.finalize) ∧
      Event.mk Hook.finalize n ∈ (n :: rest).reverse.map (Event.mk Hook.finalize) ∧
      (∀ f, (n :: rest).length ≤ f → endState f m1 n = some m2) ∧
      m2.trace = m.trace ++ ((n :: rest).reverse.map (Event.mk Hook.finalize) ++
        (n :: rest).reverse.map (Event.mk Hook.finalize)) ∧
      (∀ x ∈ n :: rest,
        ((n :: rest).reverse.map (Event.mk Hook.finalize) ++
          (n :: rest).reverse.map (Event.mk Hook.finalize)).count
            (Event.mk Hook.finalize x) = 2) ∧
      m2.heap = m1.heap ∧ m2.next = m1.next := by
  obtain ⟨m1, hrun, htr, hnx, hheap⟩ := endState_spec rest n par hl
  have hl1 : Linked m1 par (n :: rest) := by
    refine Linked.of_fields hl (fun a _ => ?_)
    rw [child, child, parent, parent, hheap a]
    split <;> cases m.heap a <;> simp
  obtain ⟨m2, hrun2, htr2, hnx2, hheap2⟩ := endState_spec rest n par hl1
  have hnd : ((n :: rest).reverse.map (Event.mk Hook.finalize)).Nodup := by
    refine List.Nodup.map ?_ (List.nodup_reverse.mpr (Linked.nodup hl))
    intro a b hab
    exact (Event.mk.injEq _ _ _ _ ▸ hab : _ ∧ a = b).2
  refine ⟨m1, m2, hrun, htr, ?_, hrun2, ?_, ?_, ?_, hnx2⟩
  · exact List.mem_map.mpr ⟨n, by simp, rfl⟩
  · rw [htr2, htr, List.append_assoc]
  · intro x hx
    have hmem : Event.mk Hook.finalize x ∈
        (n :: rest).reverse.map (Event.mk Hook.finalize) :=
      List.mem_map.mpr ⟨x, List.mem_reverse.mpr hx, rfl⟩
    rw [List.count_append, List.count_eq_one_of_mem hnd hmem]
  · funext x
    rw [hheap2 x, hheap x]
    split <;> cases m.heap x <;> simp

/-- C12 at root -> 1 -> 2 with node 1 already inactive, `endState` on node 1. -/
theorem endState_not_guarded_witness :
    Linked (mkChain [(true, 7), (false, 8), (true, 9)]) (some 0) (1 :: [2]) ∧
    active (mkChain [(true, 7), (false, 8), (true, 9)]) 1 = some false ∧
    ∃ m1 m2, (∀ f, (1 :: [2]).length ≤ f →
        endState f (mkChain [(true, 7), (false, 8), (true, 9)]) 1 = some m1) ∧
      m1.trace = (mkChain [(true, 7), (false, 8), (true, 9)]).trace ++
        (1 :: [2]).reverse.map (Event.mk Hook.finalize) ∧
      Event.mk Hook.finalize 1 ∈ (1 :: [2]).reverse.map (Event.mk Hook.finalize) ∧
      (∀ f, (1 :: [2]).length ≤ f → endState f m1 1 = some m2) ∧
      m2.trace = (mkChain [(true, 7), (false, 8), (true, 9)]).trace ++
        ((1 :: [2]).reverse.map (Event.mk Hook.finalize) ++
          (1 :: [2]).reverse.map (Event.mk Hook.finalize)) ∧
      (∀ x ∈ 1 :: [2],
        ((1 :: [2]).reverse.map (Event.mk Hook.finalize) ++
          (1 :: [2]).reverse.map (Event.mk Hook.finalize)).count
            (Event.mk Hook.finalize x) = 2) ∧
      m2.heap = m1.heap ∧ m2.next = m1.next :=
  ⟨by decide, by decide,
    endState_not_guarded (mkChain [(true, 7), (false, 8), (true, 9)]) (some 0) 1 [2]
      (by decide) (by decide)⟩

/-! ## execute on an arbitrary chain -/

theorem lastOf_mem (a : Addr) (l : List Addr) : lastOf a l ∈ a :: l := by
  induction l generalizing a with
  | nil => simp [lastOf]
  | cons b r ih => exact List.mem_cons_of_mem _ (ih b)

theorem lastOf_split (a : Addr) (l : List Addr) :
    ∃ front, a :: l = front ++ [lastOf a l] := by
  induction l generalizing a with
  | nil => exact ⟨[], rfl⟩
  | cons b r ih =>
    obtain ⟨front, h⟩ := ih b
    exact ⟨a :: front, by simp [lastOf, h]⟩

theorem pruned_other (m : Machine) {nj x : Addr} {d : Option Addr}
    (h1 : x ≠ nj) (h2 : ∀ c, d = some c → x ≠ c) : pruned m nj d x = m.heap x := by
  cases d with
  | none => rfl
  | some c => simp [pruned, Heap.set, h1, h2 c rfl]

theorem pruned_dead (m : Machine) {nj c : Addr} (h : c ≠ nj) :
    pruned m nj (some c) c = none := by
  simp [pruned, Heap.set, h]

theorem pruned_at (m : Machine) (nj c : Addr) :
    pruned m nj (some c) nj = (m.heap nj).map fun st => { st with m_subState := none } := by
  simp [pruned]

/-- A tick on a linked path `n0 :: act ++ back` whose nodes `act` are active
and where `back` is empty or starts with an inactive node. -/
theorem execute_spec :
    ∀ (act : List Addr) (m : Machine) (n0 : Addr) (par : Option Addr) (back : List Addr),
      Linked m par (n0 :: (act ++ back)) → (∀ a ∈ act, active m a = some true) →
      (∀ c, back.head? = some c → active m c = some false) →
      ∀ f, act.length + 1 ≤ f →
        execute f m n0 =
          some { m with
            heap := pruned m (lastOf n0 act) back.head?
            trace := m.trace ++ (n0 :: act).map (Event.mk Hook.preUpdate) ++
              (n0 :: act).reverse.map (Event.mk Hook.postUpdate)
            observed := m.observed ++ seen m Hook.preUpdate (n0 :: act) ++
              seen m Hook.postUpdate (n0 :: act).reverse } := by
  intro act
  induction act with
  | nil =>
    intro m n0 par back h _ hback f hf
    obtain ⟨f, rfl⟩ : ∃ g, f = g + 1 := ⟨f - 1, by simp at hf; omega⟩
    obtain ⟨st, hx, -, hsub, ht⟩ := Linked.head h
    cases back with
    | nil =>
      rw [execute_leaf f hx (by simpa using hsub)]
      simp [pruned, lastOf, seen, active, hx]
    | cons c b =>
      obtain ⟨stc, hcx, -, -, -⟩ := Linked.head ht
      have hc : stc.m_active = false := by
        have := hback c rfl
        simpa [active, hcx] using this
      have hne : n0 ≠ c := by
        intro e
        have := (List.nodup_cons.mp (Linked.nodup h)).1
        exact this (by simp [e])
      rw [execute_prune f hx (by simpa using hsub) hcx hc hne]
      simp [pruned, lastOf, hx, seen, active]
  | cons a r ih =>
    intro m n0 par back h hact hback f hf
    obtain ⟨f, rfl⟩ : ∃ g, f = g + 1 := ⟨f - 1, by simp at hf; omega⟩
    obtain ⟨st, hx, -, hsub, ht⟩ := Linked.head h
    obtain ⟨sta, hax, -, -, -⟩ := Linked.head ht
    have ha : sta.m_active = true := by
      have := hact a (by simp)
      simpa [active, hax] using this
    rw [execute_active f hx (by simpa using hsub) hax ha]
    have ht1 : Linked { m with
          trace := m.trace ++ [Event.mk Hook.preUpdate n0]
          observed := m.observed ++ [(Event.mk Hook.preUpdate n0, st.m_active)] }
        (some n0) (a :: (r ++ back)) := Linked.frame ht (fun _ _ => rfl)
    rw [ih _ a (some n0) back ht1 (fun b hb => hact b (by simp [hb])) hback f
      (by simp at hf ⊢; omega)]
    have hn0 : n0 ∉ a :: (r ++ back) := (List.nodup_cons.mp (Linked.nodup h)).1
    have hlive : pruned m (lastOf a r) back.head? n0 = some st := by
      rw [pruned_other m, hx]
      · intro e
        apply hn0
        have := lastOf_mem a r
        rw [← e] at this
        simp only [List.mem_cons, List.mem_append] at this ⊢
        rcases this with h1 | h1
        · exact Or.inl h1
        · exact Or.inr (Or.inl h1)
      · intro c hc e
        apply hn0
        have := List.mem_of_mem_head? hc
        rw [e]
        simp [this]
    have hlive1 : pruned { m with
          trace := m.trace ++ [Event.mk Hook.preUpdate n0]
          observed := m.observed ++ [(Event.mk Hook.preUpdate n0, st.m_active)] }
        (lastOf a r) back.head? n0 = some st := hlive
    simp only [postUpdateState, callHook, hlive1]
    simp [lastOf, pruned, seen, active, hx]

theorem pruned_cases (m : Machine) (nj : Addr) {a : Addr} {d : Option Addr}
    (h : ∀ c, d = some c → a ≠ c) :
    pruned m nj d a = m.heap a ∨
      pruned m nj d a = (m.heap a).map fun st => { st with m_subState := none } := by
  cases d with
  | none => exact Or.inl rfl
  | some c =>
    by_cases e : a = nj
    · right; rw [e]; exact pruned_at m nj c
    · left; exact pruned_other m e h

/-- Pruning changes no flag, parent or context of a node that stays. -/
theorem pruned_fields (m m1 : Machine) (nj : Addr) (d : Option Addr) {a : Addr}
    (hheap : m1.heap = pruned m nj d) (h : ∀ c, d = some c → a ≠ c) :
    active m1 a = active m a ∧ parent m1 a = parent m a ∧ obj m1 a = obj m a := by
  rw [active, active, parent, parent, obj, obj, hheap]
  rcases pruned_cases m nj h with e | e <;> rw [e] <;> cases m.heap a <;> simp

/-- After pruning below `nj` the path ends at `nj`. -/
theorem pruned_linked {m : Machine} (m1 : Machine) {par : Option Addr} {front back : List Addr}
    {nj : Addr} (h : Linked m par (front ++ nj :: back))
    (hheap : m1.heap = pruned m nj back.head?) : Linked m1 par (front ++ [nj]) := by
  have hnd := Linked.nodup h
  rw [List.nodup_append] at hnd
  obtain ⟨-, hnd2, hdisj⟩ := hnd
  obtain ⟨st, hx, hpar, hsub, -⟩ := Linked.node h
  refine Linked.replace_below h ?_ ⟨?_, ?_, trivial⟩
  · intro a ha
    rw [hheap]
    apply pruned_other
    · exact fun e => hdisj ha (by simp [e])
    · intro c hc e
      exact hdisj ha (List.mem_cons_of_mem _ (e ▸ List.mem_of_mem_head? hc))
  · have hnc : ∀ c, back.head? = some c → nj ≠ c := by
      intro c hc e
      exact (List.nodup_cons.mp hnd2).1 (e ▸ List.mem_of_mem_head? hc)
    rw [(pruned_fields m m1 nj back.head? hheap hnc).2.1]
    simp [parent, hx, hpar]
  · rw [child, hheap]
    cases hb : back.head? with
    | none =>
      rw [hb] at hsub
      simp [pruned, hx, hsub]
    | some c => simp [pruned_at, hx]

/-- A linked path splits into its leading active nodes and the rest, which is
empty or starts with an inactive node. -/
theorem active_split {m : Machine} :
    ∀ (l : List Addr) (par : Option Addr), Linked m par l →
      ∃ act back, l = act ++ back ∧ (∀ a ∈ act, active m a = some true) ∧
        (∀ c, back.head? = some c → active m c = some false) := by
  intro l
  induction l with
  | nil => exact fun _ _ => ⟨[], [], rfl, by simp, by simp⟩
  | cons c r ih =>
    intro par h
    obtain ⟨st, hx, -, -, ht⟩ := Linked.head h
    cases hact : st.m_active with
    | true =>
      obtain ⟨act, back, e1, e2, e3⟩ := ih (some c) ht
      refine ⟨c :: act, back, by simp [e1], ?_, e3⟩
      intro a ha
      rcases List.mem_cons.mp ha with e | e
      · rw [e]; simp [active, hx, hact]
      · exact e2 a e
    | false =>
      refine ⟨[], c :: r, rfl, by simp, ?_⟩
      intro c1 hc1
      simp only [List.head?_cons, Option.some.injEq] at hc1
      subst hc1
      simp [active, hx, hact]

/-- What a tick leaves of a chain that has been split at its first inactive
node below `n0`. -/
theorem execute_result (m : Machine) (par : Option Addr) (n0 : Addr)
    (act back : List Addr) (hl : Linked m par (n0 :: (act ++ back)))
    (hact : ∀ a ∈ act, active m a = some true)
    (hback : ∀ c, back.head? = some c → active m c = some false) :
    ∃ m1, (∀ f, act.length + 1 ≤ f → execute f m n0 = some m1) ∧
      m1.trace = m.trace ++ (n0 :: act).map (Event.mk Hook.preUpdate) ++
        (n0 :: act).reverse.map (Event.mk Hook.postUpdate) ∧
      Linked m1 par (n0 :: act) ∧ m1.next = m.next ∧
      (∀ a ∈ n0 :: act, active m1 a = active m a) ∧
      (∀ a ∈ act, active m1 a = some true) ∧
      (∀ x ∈ back, x ∉ n0 :: act) ∧
      (∀ c, back.head? = some c → m1.heap c = none) ∧
      (∀ x, x ∉ n0 :: (act ++ back) → m1.heap x = m.heap x) := by
  have hnd := Linked.nodup hl
  obtain ⟨front, hfront⟩ := lastOf_split n0 act
  have hdec : n0 :: (act ++ back) = front ++ lastOf n0 act :: back := by
    rw [← List.cons_append, hfront]; simp
  have hnd1 : (front ++ lastOf n0 act :: back).Nodup := hdec ▸ hnd
  have hdisj : ∀ x ∈ back, x ∉ n0 :: act := by
    intro x hx hx1
    rw [← List.cons_append, List.nodup_append] at hnd
    exact hnd.2.2 hx1 hx
  have hkeep : ∀ a ∈ n0 :: act, ∀ c, back.head? = some c → a ≠ c := by
    intro a ha c hc e
    exact hdisj c (List.mem_of_mem_head? hc) (e ▸ ha)
  let m1 : Machine :=
    { m with
      heap := pruned m (lastOf n0 act) back.head?
      trace := m.trace ++ (n0 :: act).map (Event.mk Hook.preUpdate) ++
        (n0 :: act).reverse.map (Event.mk Hook.postUpdate)
      observed := m.observed ++ seen m Hook.preUpdate (n0 :: act) ++
        seen m Hook.postUpdate (n0 :: act).reverse }
  have hact1 : ∀ a ∈ n0 :: act, active m1 a = active m a :=
    fun a ha => (pruned_fields m m1 (lastOf n0 act) back.head? rfl (hkeep a ha)).1
  refine ⟨m1, execute_spec act m n0 par back hl hact hback, rfl, ?_, rfl, hact1, ?_, hdisj,
    ?_, ?_⟩
  · have := pruned_linked m1 (hdec ▸ hl) rfl
    rwa [← hfront] at this
  · intro a ha
    rw [hact1 a (List.mem_cons_of_mem _ ha)]
    exact hact a ha
  · intro c hc
    show pruned m (lastOf n0 act) back.head? c = none
    rw [hc]
    exact pruned_dead m (fun e => hkeep _ (lastOf_mem n0 act) c hc e.symm)
  · intro x hx
    show pruned m (lastOf n0 act) back.head? x = m.heap x
    apply pruned_other
    · intro e
      apply hx
      have := lastOf_mem n0 act
      rw [← e] at this
      simp only [List.mem_cons, List.mem_append] at this ⊢
      rcases this with h1 | h1
      · exact Or.inl h1
      · exact Or.inr (Or.inl h1)
    · intro c hc e
      apply hx
      have := List.mem_of_mem_head? hc
      rw [e]
      simp [this]

/-- C16 (result of a tick on an arbitrary chain): every chain `n0 :: rest`,
whatever its flags, splits as `rest = act ++ back` with the nodes `act` active
and `back` empty or starting with an inactive node (so `act` is `n1..nj` for
the largest such `j`), and `n0.execute()` invokes `preUpdate` on `n0 :: act` in
order, then `postUpdate` on the same nodes in reverse order, and no hook of a
node of `back`; it leaves exactly the chain `n0 :: act`, with the flags it had,
so every node left below `n0` is active; the first node of `back` is deleted
and objects off the chain are untouched.  Nothing is assumed about the flag of
`n0`. -/
theorem execute_arbitrary_chain (m : Machine) (par : Option Addr) (n0 : Addr)
    (rest : List Addr) (hl : Linked m par (n0 :: rest)) :
    ∃ act back m1, rest = act ++ back ∧ (∀ a ∈ act, active m a = some true) ∧
      (∀ c, back.head? = some c → active m c = some false) ∧
      (∀ f, act.length + 1 ≤ f → execute f m n0 = some m1) ∧
      m1.trace = m.trace ++ (n0 :: act).map (Event.mk Hook.preUpdate) ++
        (n0 :: act).reverse.map (Event.mk Hook.postUpdate) ∧
      Linked m1 par (n0 :: act) ∧ m1.next = m.next ∧
      (∀ a ∈ n0 :: act, active m1 a = active m a) ∧
      (∀ a ∈ act, active m1 a = some true) ∧
      (∀ x ∈ back, x ∉ n0 :: act) ∧
      (∀ c, back.head? = some c → m1.heap c = none) ∧
      (∀ x, x ∉ n0 :: rest → m1.heap x = m.heap x) := by
  obtain ⟨-, -, -, -, ht⟩ := Linked.head hl
  obtain ⟨act, back, hsplit, hact, hback⟩ := active_split rest (some n0) ht
  subst hsplit
  obtain ⟨m1, h1, h2, h3, h4, h5, h6, h7, h8, h9⟩ :=
    execute_result m par n0 act back hl hact hback
  exact ⟨act, back, m1, rfl, hact, hback, h1, h2, h3, h4, h5, h6, h7, h8, h9⟩

/-- C16 at root(inactive) -> 1(active) -> 2(inactive) -> 3(active), tick on the
root. -/
theorem execute_arbitrary_chain_witness :
    Linked prunable none (0 :: [1, 2, 3]) ∧
    ∃ act back m1, [1, 2, 3] = act ++ back ∧ (∀ a ∈ act, active prunable a = some true) ∧
      (∀ c, back.head? = some c → active prunable c = some false) ∧
      (∀ f, act.length + 1 ≤ f → execute f prunable 0 = some m1) ∧
      m1.trace = prunable.trace ++ (0 :: act).map (Event.mk Hook.preUpdate) ++
        (0 :: act).reverse.map (Event.mk Hook.postUpdate) ∧
      Linked m1 none (0 :: act) ∧ m1.next = prunable.next ∧
      (∀ a ∈ 0 :: act, active m1 a = active prunable a) ∧
      (∀ a ∈ act, active m1 a = some true) ∧
      (∀ x ∈ back, x ∉ 0 :: act) ∧
      (∀ c, back.head? = some c → m1.heap c = none) ∧
      (∀ x, x ∉ 0 :: [1, 2, 3] → m1.heap x = prunable.heap x) :=
  ⟨by decide, execute_arbitrary_chain prunable none 0 [1, 2, 3] (by decide)⟩

/-! ## The flag and the hooks -/

/-- C17 (the flag is switched before the hook runs): `Machine.observed` records,
for every hook call, what `isActive()` returns on the node while the hook runs.
On a live object `this`, whatever its flag was, `initState` records `true` for
its `init` and `finalizeState` records `false` for its `finalize`;
`createSubState` records `true` for the `init` of the new node, and `endState`
on a chain records `false` for the `finalize` of every node of it, whatever the
flags were. -/
theorem flag_switched_before_hook (m : Machine) (this : Addr) (st : State)
    (hlive : m.heap this = some st) :
    (∃ m1, initState m this = some m1 ∧
      m1.observed = m.observed ++ [(Event.mk Hook.init this, true)] ∧
      active m1 this = some true) ∧
    (∃ m1, finalizeState m this = some m1 ∧
      m1.observed = m.observed ++ [(Event.mk Hook.finalize this, false)] ∧
      active m1 this = some false) ∧
    (∀ s, this ≠ m.next → ∃ m1, createSubState m this s = some m1 ∧
      m1.observed = m.observed ++ [(Event.mk Hook.init m.next, true)] ∧
      active m1 m.next = some true) ∧
    (∀ par rest, Linked m par (this :: rest) → ∃ m1,
      (∀ f, (this :: rest).length ≤ f → endState f m this = some m1) ∧
      m1.observed = m.observed ++
        (this :: rest).reverse.map (fun a => (Event.mk Hook.finalize a, false))) := by
  refine ⟨?_, ?_, ?_, ?_⟩
  · simp only [initState, modify, callHook, hlive, Heap.set_same]
    exact ⟨_, rfl, rfl, by simp [active]⟩
  · simp only [finalizeState, modify, callHook, hlive, Heap.set_same]
    exact ⟨_, rfl, rfl, by simp [active]⟩
  · intro s hne
    refine ⟨attached m this st s, createSubState_eq s hlive hne, rfl, ?_⟩
    simp [active, attached_heap_new]
  · intro par rest hl
    obtain ⟨m1, hrun, -, -, -, hobs, -⟩ := endState_full rest this par hl
    exact ⟨m1, hrun, hobs⟩

/-- C17 on node 1 of root -> 1 -> 2, all active: `finalize` observes false
although the flag was true, and the `init` of a new node, made of zeroed
memory, observes true. -/
theorem flag_switched_before_hook_witness :
    (mkChain [(true, 7), (true, 8), (true, 9)]).heap 1 =
      some (State.mk (some 2) (some 0) (some 100) true 8) ∧
    ((∃ m1, initState (mkChain [(true, 7), (true, 8), (true, 9)]) 1 = some m1 ∧
      m1.observed = (mkChain [(true, 7), (true, 8), (true, 9)]).observed ++
        [(Event.mk Hook.init 1, true)] ∧
      active m1 1 = some true) ∧
    (∃ m1, finalizeState (mkChain [(true, 7), (true, 8), (true, 9)]) 1 = some m1 ∧
      m1.observed = (mkChain [(true, 7), (true, 8), (true, 9)]).observed ++
        [(Event.mk Hook.finalize 1, false)] ∧
      active m1 1 = some false) ∧
    (∀ s, 1 ≠ (mkChain [(true, 7), (true, 8), (true, 9)]).next → ∃ m1,
      createSubState (mkChain [(true, 7), (true, 8), (true, 9)]) 1 s = some m1 ∧
      m1.observed = (mkChain [(true, 7), (true, 8), (true, 9)]).observed ++
        [(Event.mk Hook.init (mkChain [(true, 7), (true, 8), (true, 9)]).next, true)] ∧
      active m1 (mkChain [(true, 7), (true, 8), (true, 9)]).next = some true) ∧
    (∀ par rest, Linked (mkChain [(true, 7), (true, 8), (true, 9)]) par (1 :: rest) → ∃ m1,
      (∀ f, (1 :: rest).length ≤ f →
        endState f (mkChain [(true, 7), (true, 8), (true, 9)]) 1 = some m1) ∧
      m1.observed = (mkChain [(true, 7), (true, 8), (true, 9)]).observed ++
        (1 :: rest).reverse.map (fun a => (Event.mk Hook.finalize a, false)))) :=
  ⟨by decide,
    flag_switched_before_hook (mkChain [(true, 7), (true, 8), (true, 9)]) 1
      (State.mk (some 2) (some 0) (some 100) true 8) (by decide)⟩

/-! ## The flag of the root -/

/-- Descent with the stopping point named: from `x`, active or the root,
through the active nodes `act`, to the last of them. -/
theorem enterState_descend_exact {m : Machine} {l : List Addr} (hl : Linked m none l)
    (s : StateClass) :
    ∀ (act pre : List Addr) (x : Addr) (st : State) (back : List Addr),
      l = pre ++ x :: (act ++ back) → m.heap x = some st →
      (st.m_active = true ∨ pre = []) → (∀ a ∈ act, active m a = some true) →
      (∀ c, back.head? = some c → active m c = some false) →
      ∀ f, act.length + 1 ≤ f →
        enterState f m x s = createSubState (dropChild m back.head?) (lastOf x act) s := by
  intro act
  induction act with
  | nil =>
    intro pre x st back hdec hx hroot _ hback f hf
    obtain ⟨f, rfl⟩ : ∃ g, f = g + 1 := ⟨f - 1, by simp at hf; omega⟩
    obtain ⟨st1, h1, h2, h3, h4⟩ := Linked.node (hdec ▸ hl)
    rw [hx] at h1
    cases h1
    have hstay : st.m_active = true ∨ st.m_parentState = none := by
      rcases hroot with h | h
      · exact Or.inl h
      · right; rw [h2, h]; rfl
    rw [enterState_stay f s hx hstay]
    simp only [List.nil_append] at h3 h4
    cases back with
    | nil =>
      simp only [List.head?_nil] at h3
      rw [h3]
      rfl
    | cons c b =>
      obtain ⟨stc, hcx, -, -, -⟩ := Linked.head h4
      have hc : stc.m_active = false := by
        have := hback c rfl
        simpa [active, hcx] using this
      simp only [List.head?_cons] at h3
      rw [h3]
      simp only [hcx, hc]
      rfl
  | cons a r ih =>
    intro pre x st back hdec hx hroot hact hback f hf
    obtain ⟨f, rfl⟩ : ∃ g, f = g + 1 := ⟨f - 1, by simp at hf; omega⟩
    obtain ⟨st1, h1, h2, h3, h4⟩ := Linked.node (hdec ▸ hl)
    rw [hx] at h1
    cases h1
    have hstay : st.m_active = true ∨ st.m_parentState = none := by
      rcases hroot with h | h
      · exact Or.inl h
      · right; rw [h2, h]; rfl
    obtain ⟨sta, hax, -, -, -⟩ := Linked.head h4
    have ha : sta.m_active = true := by
      have := hact a (by simp)
      simpa [active, hax] using this
    rw [enterState_stay f s hx hstay]
    simp only [List.cons_append, List.head?_cons] at h3
    rw [h3]
    simp only [hax, ha, if_true]
    have hdec1 : l = (pre ++ [x]) ++ a :: (r ++ back) := by simp [hdec]
    exact ih (pre ++ [x]) a sta back hdec1 hax (Or.inl ha)
      (fun b hb => hact b (by simp [hb])) hback f (by simp at hf ⊢; omega)

/-- Two machines that differ in the flag of `root` only are linked alike and
show the same flags below the root. -/
theorem flag_twin {m m1 : Machine} {root : Addr} {rest : List Addr} {st : State} {b : Bool}
    (hl : Linked m none (root :: rest)) (hroot : m.heap root = some st)
    (hsame : ∀ x, x ≠ root → m1.heap x = m.heap x)
    (hflag : m1.heap root = some { st with m_active := b }) :
    Linked m1 none (root :: rest) ∧ ∀ a ∈ rest, active m1 a = active m a := by
  have hnr : ∀ a ∈ rest, a ≠ root := by
    intro a ha e
    exact (List.nodup_cons.mp (Linked.nodup hl)).1 (e ▸ ha)
  refine ⟨Linked.of_fields hl ?_, fun a ha => by rw [active, active, hsame a (hnr a ha)]⟩
  intro a _
  by_cases e : a = root
  · subst e; simp [parent, child, hflag, hroot]
  · simp [parent, child, hsame a e]

/-- The closed form of `enterState` on the root of a well-formed chain. -/
theorem enterState_root {m : Machine} {root : Addr} {act back : List Addr}
    (wf : WellFormed m (root :: (act ++ back))) (s : StateClass)
    (hact : ∀ a ∈ act, active m a = some true)
    (hback : ∀ c, back.head? = some c → active m c = some false) :
    ∃ stj, m.heap (lastOf root act) = some stj ∧
      (dropChild m back.head?).heap (lastOf root act) = some stj ∧
      ∀ f, act.length + 1 ≤ f →
        enterState f m root s =
          some (attached (dropChild m back.head?) (lastOf root act) stj s) := by
  obtain ⟨-, hnd, hlt, hl⟩ := wf
  obtain ⟨st, hx, -⟩ := Linked.head hl
  have hmem : lastOf root act ∈ root :: (act ++ back) := by
    have := lastOf_mem root act
    simp only [List.mem_cons, List.mem_append] at this ⊢
    rcases this with h | h
    · exact Or.inl h
    · exact Or.inr (Or.inl h)
  obtain ⟨stj, hj⟩ := Linked.live hl hmem
  have hnc : ∀ c, back.head? = some c → lastOf root act ≠ c := by
    intro c hc e
    rw [← List.cons_append, List.nodup_append] at hnd
    exact hnd.2.2 (lastOf_mem root act) (e ▸ List.mem_of_mem_head? hc)
  have hj1 : (dropChild m back.head?).heap (lastOf root act) = some stj := by
    rw [dropChild_heap_ne m hnc]; exact hj
  refine ⟨stj, hj, hj1, fun f hf => ?_⟩
  rw [enterState_descend_exact hl s act [] root st back rfl hx (Or.inr rfl) hact hback f hf]
  exact createSubState_eq s hj1 (by rw [dropChild_next]; exact ne_of_lt (hlt _ hmem))

/-- C18 (the root's own flag does not influence enterState or execute): let
`m` hold a well-formed chain from the parentless `root`, and let `m1` be the
same machine (objects, allocator cursor, trace, and what fresh memory holds)
except that the flag of `root` is `b`.  Then `root.enterState(s)`
returns in both, with the same trace, the same allocator cursor and the same
record at every object other than `root`; `root` itself keeps the flag it had
in each and has otherwise the same record.  The same holds of
`root.execute()`. -/
theorem root_flag_irrelevant (m m1 : Machine) (root : Addr) (rest : List Addr) (st : State)
    (b : Bool) (s : StateClass) (wf : WellFormed m (root :: rest))
    (hroot : m.heap root = some st)
    (hsame : ∀ x, x ≠ root → m1.heap x = m.heap x)
    (hflag : m1.heap root = some { st with m_active := b })
    (hnext : m1.next = m.next) (htrace : m1.trace = m.trace)
    (hfresh : m1.uninit = m.uninit) :
    (∃ r r1, (∀ f, (root :: rest).length ≤ f →
          enterState f m root s = some r ∧ enterState f m1 root s = some r1) ∧
        r1.trace = r.trace ∧ r1.next = r.next ∧
        (∀ x, x ≠ root → r1.heap x = r.heap x) ∧
        r1.heap root = (r.heap root).map (fun t => { t with m_active := b }) ∧
        active r root = active m root ∧ active r1 root = some b) ∧
    (∃ e e1, (∀ f, (root :: rest).length ≤ f →
          execute f m root = some e ∧ execute f m1 root = some e1) ∧
        e1.trace = e.trace ∧ e1.next = e.next ∧
        (∀ x, x ≠ root → e1.heap x = e.heap x) ∧
        e1.heap root = (e.heap root).map (fun t => { t with m_active := b }) ∧
        active e root = active m root ∧ active e1 root = some b) := by
  have hl := wf.2.2.2
  obtain ⟨hl1, hflags⟩ := flag_twin hl hroot hsame hflag
  obtain ⟨st0, -, -, -, ht⟩ := Linked.head hl
  obtain ⟨act, back, hdec, hact, hback⟩ := active_split rest (some root) ht
  subst hdec
  have hnd := Linked.nodup hl
  have hnr : ∀ a ∈ act ++ back, a ≠ root := by
    intro a ha e
    exact (List.nodup_cons.mp hnd).1 (e ▸ ha)
  have hact1 : ∀ a ∈ act, active m1 a = some true := by
    intro a ha; rw [hflags a (by simp [ha])]; exact hact a ha
  have hback1 : ∀ c, back.head? = some c → active m1 c = some false := by
    intro c hc
    rw [hflags c (by simp [List.mem_of_mem_head? hc])]; exact hback c hc
  have wf1 : WellFormed m1 (root :: (act ++ back)) :=
    ⟨wf.1, wf.2.1, fun a ha => hnext ▸ wf.2.2.1 a ha, hl1⟩
  have hrc : ∀ c, back.head? = some c → root ≠ c := by
    intro c hc e
    exact hnr c (by simp [List.mem_of_mem_head? hc]) e.symm
  have hrlt : root ≠ m.next := ne_of_lt (wf.2.2.1 root (by simp))
  have hlen : act.length + 1 ≤ (root :: (act ++ back)).length := by simp
  have hd : ∀ x, x ≠ root → (dropChild m1 back.head?).heap x = (dropChild m back.head?).heap x := by
    intro x hx
    cases hb : back.head? with
    | none => exact hsame x hx
    | some c =>
      show (m1.heap.set c none) x = (m.heap.set c none) x
      by_cases e : x = c
      · simp [Heap.set, e]
      · rw [Heap.set_ne _ _ e, Heap.set_ne _ _ e]; exact hsame x hx
  have hjlt : lastOf root act ≠ m.next := by
    refine ne_of_lt (wf.2.2.1 _ ?_)
    have := lastOf_mem root act
    simp only [List.mem_cons, List.mem_append] at this ⊢
    rcases this with h | h
    · exact Or.inl h
    · exact Or.inr (Or.inl h)
  constructor
  · obtain ⟨stj, hj, hjd, hrun⟩ := enterState_root wf s hact hback
    obtain ⟨stk, hk, hkd, hrun1⟩ := enterState_root wf1 s hact1 hback1
    have hobj : stk.m_obj = stj.m_obj := by
      by_cases e : lastOf root act = root
      · rw [e, hflag] at hk; rw [e, hroot] at hj
        cases hk; cases hj; rfl
      · rw [hsame _ e, hj] at hk
        cases hk; rfl
    have hjlt1 : lastOf root act ≠ (dropChild m1 back.head?).next := by
      rw [dropChild_next, hnext]; exact hjlt
    have hjlt0 : lastOf root act ≠ (dropChild m back.head?).next := by
      rw [dropChild_next]; exact hjlt
    have hroot1 : (attached (dropChild m1 back.head?) (lastOf root act) stk s).heap root =
        ((attached (dropChild m back.head?) (lastOf root act) stj s).heap root).map
          (fun t => { t with m_active := b }) := by
      by_cases e : lastOf root act = root
      · rw [e] at hk hj hjlt1 hjlt0 ⊢
        rw [hflag] at hk; rw [hroot] at hj
        cases hk; cases hj
        rw [attached_heap_at _ _ _ hjlt1, attached_heap_at _ _ _ hjlt0]
        simp [hnext]
      · have e1 : root ≠ lastOf root act := fun h => e h.symm
        rw [attached_heap_other _ _ _ (by rw [dropChild_next, hnext]; exact hrlt) e1,
          attached_heap_other _ _ _ (by rw [dropChild_next]; exact hrlt) e1,
          dropChild_heap_ne m1 hrc, dropChild_heap_ne m hrc, hflag, hroot]
        rfl
    refine ⟨_, _, fun f hf => ⟨hrun f (le_trans hlen hf), hrun1 f (le_trans hlen hf)⟩,
      ?_, ?_, ?_, hroot1, ?_, ?_⟩
    · simp [attached, htrace, hnext]
    · simp [attached, hnext]
    · intro x hx
      by_cases e1 : x = m.next
      · rw [e1]
        have a1 := attached_heap_new (dropChild m1 back.head?) (lastOf root act) stk s
        have a0 := attached_heap_new (dropChild m back.head?) (lastOf root act) stj s
        rw [dropChild_next, hnext] at a1
        rw [dropChild_next] at a0
        rw [dropChild_uninit, hfresh] at a1
        rw [dropChild_uninit] at a0
        rw [a1, a0, hobj]
      · by_cases e2 : x = lastOf root act
        · have hkj : stk = stj := by
            rw [hsame _ (e2 ▸ hx), hj] at hk
            exact (Option.some.inj hk).symm
          rw [e2, attached_heap_at _ _ _ hjlt1, attached_heap_at _ _ _ hjlt0, hkj]
          simp [hnext]
        · rw [attached_heap_other _ _ _ (by rw [dropChild_next, hnext]; exact e1) e2,
            attached_heap_other _ _ _ (by rw [dropChild_next]; exact e1) e2]
          exact hd x hx
    · by_cases e : lastOf root act = root
      · rw [e] at hj hjlt0 ⊢
        rw [active, active, attached_heap_at _ _ _ hjlt0, hj]
        rfl
      · have e1 : root ≠ lastOf root act := fun h => e h.symm
        rw [active, active,
          attached_heap_other _ _ _ (by rw [dropChild_next]; exact hrlt) e1,
          dropChild_heap_ne m hrc]
    · by_cases e : lastOf root act = root
      · rw [e] at hk hjlt1 ⊢
        rw [hflag] at hk
        cases hk
        rw [active, attached_heap_at _ _ _ hjlt1]
        rfl
      · have e1 : root ≠ lastOf root act := fun h => e h.symm
        rw [active,
          attached_heap_other _ _ _ (by rw [dropChild_next, hnext]; exact hrlt) e1,
          dropChild_heap_ne m1 hrc, hflag]
        rfl
  · have hx0 := execute_spec act m root none back hl hact hback
    have hx1 := execute_spec act m1 root none back hl1 hact1 hback1
    refine ⟨_, _, fun f hf => ⟨hx0 f (le_trans hlen hf), hx1 f (le_trans hlen hf)⟩,
      ?_, hnext, ?_, ?_, ?_, ?_⟩
    · simp [htrace]
    · intro x hx
      show pruned m1 (lastOf root act) back.head? x = pruned m (lastOf root act) back.head? x
      cases back.head? with
      | none => exact hsame x hx
      | some c =>
        by_cases e2 : x = lastOf root act
        · rw [e2, pruned_at, pruned_at, hsame _ (e2 ▸ hx)]
        · by_cases e3 : x = c
          · rw [e3] at e2 ⊢
            rw [pruned_dead m1 e2, pruned_dead m e2]
          · rw [pruned_other m1 e2 (fun c1 hc1 => by cases hc1; exact e3),
              pruned_other m e2 (fun c1 hc1 => by cases hc1; exact e3)]
            exact hsame x hx
    · show pruned m1 (lastOf root act) back.head? root =
        (pruned m (lastOf root act) back.head? root).map (fun t => { t with m_active := b })
      cases hb : back.head? with
      | none => simp [pruned, hflag, hroot]
      | some c =>
        by_cases e2 : root = lastOf root act
        · rw [← e2, pruned_at, pruned_at, hflag, hroot]
          rfl
        · rw [pruned_other m1 e2 (fun c1 hc1 => by cases hc1; exact hrc c hb),
            pruned_other m e2 (fun c1 hc1 => by cases hc1; exact hrc c hb), hflag, hroot]
          rfl
    · exact (pruned_fields m _ (lastOf root act) back.head? rfl hrc).1
    · rw [(pruned_fields m1 _ (lastOf root act) back.head? rfl hrc).1,
        active, hflag]
      rfl

/-- C18 at root -> 1(active), the root inactive in one machine and active in
the other. -/
theorem root_flag_irrelevant_witness :
    WellFormed (mkChain [(false, 7), (true, 8)]) (0 :: [1]) ∧
    (mkChain [(false, 7), (true, 8)]).heap 0 = some (State.mk (some 1) none (some 100) false 7) ∧
    (∀ x, x ≠ 0 → (mkChain [(true, 7), (true, 8)]).heap x =
      (mkChain [(false, 7), (true, 8)]).heap x) ∧
    (mkChain [(true, 7), (true, 8)]).heap 0 =
      some { State.mk (some 1) none (some 100) false 7 with m_active := true } ∧
    (mkChain [(true, 7), (true, 8)]).next = (mkChain [(false, 7), (true, 8)]).next ∧
    (mkChain [(true, 7), (true, 8)]).trace = (mkChain [(false, 7), (true, 8)]).trace ∧
    (mkChain [(true, 7), (true, 8)]).uninit = (mkChain [(false, 7), (true, 8)]).uninit ∧
    ((∃ r r1, (∀ f, (0 :: [1]).length ≤ f →
          enterState f (mkChain [(false, 7), (true, 8)]) 0 5 = some r ∧
          enterState f (mkChain [(true, 7), (true, 8)]) 0 5 = some r1) ∧
        r1.trace = r.trace ∧ r1.next = r.next ∧
        (∀ x, x ≠ 0 → r1.heap x = r.heap x) ∧
        r1.heap 0 = (r.heap 0).map (fun t => { t with m_active := true }) ∧
        active r 0 = active (mkChain [(false, 7), (true, 8)]) 0 ∧
        active r1 0 = some true) ∧
    (∃ e e1, (∀ f, (0 :: [1]).length ≤ f →
          execute f (mkChain [(false, 7), (true, 8)]) 0 = some e ∧
          execute f (mkChain [(true, 7), (true, 8)]) 0 = some e1) ∧
        e1.trace = e.trace ∧ e1.next = e.next ∧
        (∀ x, x ≠ 0 → e1.heap x = e.heap x) ∧
        e1.heap 0 = (e.heap 0).map (fun t => { t with m_active := true }) ∧
        active e 0 = active (mkChain [(false, 7), (true, 8)]) 0 ∧
        active e1 0 = some true)) :=
  ⟨by decide, by decide,
    fun x hx => by simp [mkChain, chainHeap, Heap.set, hx],
    by decide, by decide, by decide, rfl,
    root_flag_irrelevant (mkChain [(false, 7), (true, 8)]) (mkChain [(true, 7), (true, 8)])
      0 [1] (State.mk (some 1) none (some 100) false 7) true 5 (by decide) (by decide)
      (fun x hx => by simp [mkChain, chainHeap, Heap.set, hx]) (by decide) (by decide)
      (by decide) rfl⟩

/-! ## Runs -/

/-- More stack never changes what `enterState` returns. -/
theorem enterState_mono (m : Machine) (s : StateClass) :
    ∀ (f : Nat) (n : Addr) (r : Machine),
      enterState f m n s = some r → enterState (f + 1) m n s = some r := by
  intro f
  induction f with
  | zero => intro n r h; simp [enterState] at h
  | succ f ih =>
    intro n r h
    cases hx : m.heap n with
    | none => rw [enterState] at h; simp [hx] at h
    | some self =>
      have hcase : (self.m_active = false ∧ ∃ p, self.m_parentState = some p) ∨
          (self.m_active = true ∨ self.m_parentState = none) := by
        cases self.m_active <;> cases self.m_parentState <;> simp
      rcases hcase with ⟨ha, p, hp⟩ | hstay
      · rw [enterState_up f s hx ha hp] at h
        rw [enterState_up (f + 1) s hx ha hp]
        exact ih _ _ h
      · rw [enterState_stay f s hx hstay] at h
        rw [enterState_stay (f + 1) s hx hstay]
        cases hsub : self.m_subState with
        | none => simpa [hsub] using h
        | some c =>
          simp only [hsub] at h ⊢
          cases hc : m.heap c with
          | none => simp [hc] at h
          | some sub =>
            simp only [hc] at h ⊢
            cases ha : sub.m_active with
            | true =>
              simp only [ha, if_true] at h ⊢
              exact ih _ _ h
            | false => simpa [ha] using h

/-- More stack never changes what `endState` returns. -/
theorem endState_mono (m : Machine) :
    ∀ (f : Nat) (n : Addr) (r : Machine),
      endState f m n = some r → endState (f + 1) m n = some r := by
  intro f
  induction f with
  | zero => intro n r h; simp [endState] at h
  | succ f ih =>
    intro n r h
    rw [endState] at h
    rw [endState]
    cases hx : m.heap n with
    | none => simp [hx] at h
    | some self =>
      simp only [hx] at h ⊢
      cases hsub : self.m_subState with
      | none => simpa [hsub] using h
      | some c =>
        simp only [hsub] at h ⊢
        cases hc : endState f m c with
        | none => simp [hc] at h
        | some mc =>
          rw [ih c mc hc]
          simpa [hc] using h

/-- More stack never changes what `execute` returns. -/
theorem execute_mono :
    ∀ (f : Nat) (m : Machine) (n : Addr) (r : Machine),
      execute f m n = some r → execute (f + 1) m n = some r := by
  intro f
  induction f with
  | zero => intro m n r h; simp [execute] at h
  | succ f ih =>
    intro m n r h
    rw [execute] at h
    rw [execute]
    cases hp : preUpdateState m n with
    | none => simp [hp] at h
    | some mp =>
      simp only [hp] at h ⊢
      cases hx : mp.heap n with
      | none => simp [hx] at h
      | some self =>
        simp only [hx] at h ⊢
        cases hsub : self.m_subState with
        | none => simpa [hsub] using h
        | some c =>
          simp only [hsub] at h ⊢
          cases hc : mp.heap c with
          | none => simp [hc] at h
          | some sub =>
            simp only [hc] at h ⊢
            cases ha : sub.m_active with
            | false => simpa [ha] using h
            | true =>
              simp only [ha, if_true] at h ⊢
              cases he : execute f mp c with
              | none => simp [he] at h
              | some me =>
                rw [ih mp c me he]
                simpa [he] using h

/-- A call returns the same machine whatever stack it is given, when it
returns. -/
theorem Op.run_unique (op : Op) (m : Machine) {f g : Nat} {r r1 : Machine}
    (h : op.run f m = some r) (h1 : op.run g m = some r1) : r = r1 := by
  have hmono : ∀ k x, op.run f m = some x → op.run (f + k) m = some x := by
    intro k
    induction k with
    | zero => exact fun x hx => hx
    | succ k ih =>
      intro x hx
      have := ih x hx
      cases op with
      | enterState n s => exact enterState_mono m s _ n x this
      | endState n => exact endState_mono m _ n x this
      | execute n => exact execute_mono _ m n x this
  have hmono1 : ∀ k x, op.run g m = some x → op.run (g + k) m = some x := by
    intro k
    induction k with
    | zero => exact fun x hx => hx
    | succ k ih =>
      intro x hx
      have := ih x hx
      cases op with
      | enterState n s => exact enterState_mono m s _ n x this
      | endState n => exact endState_mono m _ n x this
      | execute n => exact execute_mono _ m n x this
  have a := hmono g r h
  have b := hmono1 f r1 h1
  rw [Nat.add_comm g f, a] at b
  exact Option.some.inj b

/-! ### What every call preserves, on any heap -/

theorem callHook_eq {m : Machine} {n : Addr} {st : State} (hk : Hook)
    (hx : m.heap n = some st) :
    callHook m n hk = some { m with
      trace := m.trace ++ [Event.mk hk n]
      observed := m.observed ++ [(Event.mk hk n, st.m_active)] } := by
  simp [callHook, hx]

theorem callHook_live {m r : Machine} {n : Addr} {hk : Hook} (h : callHook m n hk = some r) :
    (∃ st, m.heap n = some st) ∧ r.heap = m.heap ∧ r.next = m.next ∧ r.uninit = m.uninit := by
  cases hx : m.heap n with
  | none => simp [callHook, hx] at h
  | some st =>
    rw [callHook_eq hk hx] at h
    cases h
    exact ⟨⟨st, rfl⟩, rfl, rfl, rfl⟩

theorem finalizeState_eq {m : Machine} {n : Addr} {st : State} (hx : m.heap n = some st) :
    finalizeState m n = some { m with
      heap := m.heap.set n (some { st with m_active := false })
      trace := m.trace ++ [Event.mk Hook.finalize n]
      observed := m.observed ++ [(Event.mk Hook.finalize n, false)] } := by
  simp [finalizeState, modify, callHook, hx]

theorem finalizeState_live {m r : Machine} {n : Addr} (h : finalizeState m n = some r) :
    ∃ st, m.heap n = some st := by
  cases hx : m.heap n with
  | none => simp [finalizeState, modify, hx] at h
  | some st => exact ⟨st, rfl⟩

/-- What a returning `endState` does to any heap: it lowers the flag of the
objects of a set that holds the node and is closed under the child slot, and
touches nothing else. -/
theorem endState_shape :
    ∀ (f : Nat) (m : Machine) (n : Addr) (r : Machine), endState f m n = some r →
      r.next = m.next ∧ r.uninit = m.uninit ∧
      ∃ T : List Addr, n ∈ T ∧
        (∀ p ∈ T, ∀ sp, m.heap p = some sp → ∀ c, sp.m_subState = some c → c ∈ T) ∧
        ∀ x, r.heap x =
          if x ∈ T then (m.heap x).map (fun st => { st with m_active := false })
          else m.heap x := by
  intro f
  induction f with
  | zero => intro m n r h; simp [endState] at h
  | succ f ih =>
    intro m n r h
    rw [endState] at h
    cases hx : m.heap n with
    | none => simp [hx] at h
    | some self =>
      simp only [hx] at h
      cases hsub : self.m_subState with
      | none =>
        simp only [hsub] at h
        rw [finalizeState_eq hx] at h
        cases h
        refine ⟨rfl, rfl, [n], by simp, ?_, ?_⟩
        · intro p hp sp hsp c hc
          rw [List.mem_singleton] at hp
          rw [hp, hx] at hsp
          cases hsp
          rw [hsub] at hc
          cases hc
        · intro x
          by_cases e : x = n
          · subst e; simp [hx]
          · simp [Heap.set, e]
      | some c =>
        simp only [hsub] at h
        cases hrec : endState f m c with
        | none => simp [hrec] at h
        | some m1 =>
          simp only [hrec] at h
          obtain ⟨hnx, hun, T, hcT, hclosed, hheap⟩ := ih m c m1 hrec
          obtain ⟨s1, hs1⟩ := finalizeState_live h
          rw [finalizeState_eq hs1] at h
          cases h
          refine ⟨hnx, hun, n :: T, by simp, ?_, ?_⟩
          · intro p hp sp hsp d hd
            rcases List.mem_cons.mp hp with e | e
            · rw [e, hx] at hsp
              cases hsp
              rw [hsub] at hd
              cases hd
              exact List.mem_cons_of_mem _ hcT
            · exact List.mem_cons_of_mem _ (hclosed p e sp hsp d hd)
          · intro x
            by_cases e : x = n
            · subst e
              have := hheap x
              rw [hs1, hx] at this
              simp only [Heap.set_same, List.mem_cons, true_or, if_true, hx, Option.map_some']
              split at this
              · simp only [Option.map_some', Option.some.injEq] at this
                rw [this]
              · simp only [Option.some.injEq] at this
                rw [this]
            · simp only [Heap.set, e, if_false, hheap x, List.mem_cons, false_or]

/-- What a returning `execute` does to any heap: an object that is live
afterwards was live before, with the same parent and flag, and the same child
slot unless the slot was cleared. -/
theorem execute_shape :
    ∀ (f : Nat) (m : Machine) (n : Addr) (r : Machine), execute f m n = some r →
      r.next = m.next ∧ r.uninit = m.uninit ∧
      ∀ x sr, r.heap x = some sr → ∃ sx, m.heap x = some sx ∧
        sr.m_parentState = sx.m_parentState ∧ sr.m_active = sx.m_active ∧
        (sr.m_subState = sx.m_subState ∨ sr.m_subState = none) := by
  intro f
  induction f with
  | zero => intro m n r h; simp [execute] at h
  | succ f ih =>
    intro m n r h
    rw [execute] at h
    cases hx : m.heap n with
    | none => simp [preUpdateState, callHook, hx] at h
    | some self =>
      simp only [preUpdateState, callHook_eq Hook.preUpdate hx, hx] at h
      cases hsub : self.m_subState with
      | none =>
        simp only [hsub, postUpdateState] at h
        obtain ⟨-, hh, hn, hu⟩ := callHook_live h
        refine ⟨hn, hu, fun x sr hsr => ⟨sr, ?_, rfl, rfl, Or.inl rfl⟩⟩
        rw [hh] at hsr
        exact hsr
      | some c =>
        simp only [hsub] at h
        cases hc : m.heap c with
        | none => simp [hc] at h
        | some sub =>
          simp only [hc] at h
          by_cases ha : sub.m_active = true
          · simp only [ha, if_true] at h
            cases hrec : execute f { m with
                trace := m.trace ++ [Event.mk Hook.preUpdate n]
                observed := m.observed ++ [(Event.mk Hook.preUpdate n, self.m_active)] } c with
            | none => simp [hrec] at h
            | some m2 =>
              simp only [hrec, postUpdateState] at h
              obtain ⟨hn2, hu2, hh2⟩ := ih _ c m2 hrec
              obtain ⟨-, hh, hn, hu⟩ := callHook_live h
              refine ⟨by rw [hn, hn2], by rw [hu, hu2], fun x sr hsr => ?_⟩
              rw [hh] at hsr
              exact hh2 x sr hsr
          · simp only [ha] at h
            by_cases e : n = c
            · simp [setState, modify, deleteState, e] at h
            · have hn1 : ((m.heap.set c none) n) = some self := by
                rw [Heap.set_ne _ _ e]; exact hx
              simp only [setState, modify, deleteState, hn1, postUpdateState] at h
              obtain ⟨-, hh, hn, hu⟩ := callHook_live h
              refine ⟨hn, hu, fun x sr hsr => ?_⟩
              rw [hh] at hsr
              by_cases e1 : x = n
              · subst e1
                simp only [Heap.set_same, Option.some.injEq] at hsr
                exact ⟨self, hx, by rw [← hsr], by rw [← hsr], Or.inr (by rw [← hsr])⟩
              · by_cases e2 : x = c
                · subst e2
                  simp [Heap.set, e1] at hsr
                · simp only [Heap.set, e1, e2, if_false] at hsr
                  exact ⟨sr, hsr, rfl, rfl, Or.inl rfl⟩

theorem createSubState_dead {m : Machine} {state : Addr} (cls : StateClass)
    (hst : m.heap state = none) (hne : state ≠ m.next) :
    createSubState m state cls = none := by
  simp [createSubState, copy, Heap.set_ne _ _ hne, hst]

/-- What a returning `enterState` does to any heap whose live objects all come
from the allocator: it attaches the new node to a node that is active or has no
parent, after deleting at most one object. -/
theorem enterState_shape (s : StateClass) :
    ∀ (f : Nat) (m : Machine) (n : Addr) (r : Machine), LiveBelow m →
      enterState f m n s = some r →
      ∃ j sj d, m.heap j = some sj ∧ (dropChild m d).heap j = some sj ∧
        (sj.m_active = true ∨ sj.m_parentState = none) ∧
        r = attached (dropChild m d) j sj s := by
  intro f
  induction f with
  | zero => intro m n r _ h; simp [enterState] at h
  | succ f ih =>
    intro m n r hL h
    cases hx : m.heap n with
    | none => rw [enterState] at h; simp [hx] at h
    | some self =>
      have hcase : (self.m_active = false ∧ ∃ p, self.m_parentState = some p) ∨
          (self.m_active = true ∨ self.m_parentState = none) := by
        cases self.m_active <;> cases self.m_parentState <;> simp
      have hnlt : n ≠ m.next := ne_of_lt (hL n (by rw [hx]; simp))
      rcases hcase with ⟨ha, p, hp⟩ | hstay
      · rw [enterState_up f s hx ha hp] at h
        exact ih m p r hL h
      · rw [enterState_stay f s hx hstay] at h
        cases hsub : self.m_subState with
        | none =>
          simp only [hsub] at h
          rw [createSubState_eq s hx hnlt] at h
          cases h
          exact ⟨n, self, none, hx, hx, hstay, rfl⟩
        | some c =>
          simp only [hsub] at h
          cases hc : m.heap c with
          | none => simp [hc] at h
          | some sub =>
            simp only [hc] at h
            by_cases ha : sub.m_active = true
            · simp only [ha, if_true] at h
              exact ih m c r hL h
            · simp only [ha] at h
              by_cases e : n = c
              · have hd : (deleteState m c).heap n = none := by
                  simp [deleteState, e]
                rw [createSubState_dead s hd hnlt] at h
                cases h
              · have hd : (deleteState m c).heap n = some self := by
                  show (m.heap.set c none) n = some self
                  rw [Heap.set_ne _ _ e]; exact hx
                rw [createSubState_eq s hd hnlt] at h
                cases h
                exact ⟨n, self, some c, hx, hd, hstay, rfl⟩

theorem dropChild_heap_some {m : Machine} {d : Option Addr} {x : Addr} {sx : State}
    (h : (dropChild m d).heap x = some sx) : m.heap x = some sx := by
  cases d with
  | none => exact h
  | some c =>
    by_cases e : x = c
    · rw [e] at h
      simp [dropChild, deleteState] at h
    · rw [dropChild_heap_ne m (fun c1 hc1 => by cases hc1; exact e)] at h
      exact h

/-- Attaching a node to a node that is active or has no parent keeps both
invariants. -/
theorem attached_settled {m : Machine} {j : Addr} {sj : State} {d : Option Addr}
    (s : StateClass) (hL : LiveBelow m) (hG : Settled m)
    (hj : (dropChild m d).heap j = some sj)
    (hs : sj.m_active = true ∨ sj.m_parentState = none) :
    LiveBelow (attached (dropChild m d) j sj s) ∧
      Settled (attached (dropChild m d) j sj s) := by
  have hjm := dropChild_heap_some hj
  have hjlt : j ≠ m.next := ne_of_lt (hL j (by rw [hjm]; simp))
  have hjlt1 : j ≠ (dropChild m d).next := by rw [dropChild_next]; exact hjlt
  have hother : ∀ x sx, x ≠ m.next → x ≠ j →
      (attached (dropChild m d) j sj s).heap x = some sx → m.heap x = some sx := by
    intro x sx h1 h2 h
    rw [attached_heap_other _ _ _ (by rw [dropChild_next]; exact h1) h2] at h
    exact dropChild_heap_some h
  have hnew := attached_heap_new (dropChild m d) j sj s
  have hat := attached_heap_at (dropChild m d) sj s hjlt1
  rw [dropChild_next] at hnew hat
  constructor
  · intro a ha
    have hnx : (attached (dropChild m d) j sj s).next = m.next + 1 := by simp [attached]
    rw [hnx]
    by_cases e1 : a = m.next
    · rw [e1]; exact Nat.lt_succ_self _
    · by_cases e2 : a = j
      · rw [e2]; exact Nat.lt_succ_of_lt (hL j (by rw [hjm]; simp))
      · cases hx : (attached (dropChild m d) j sj s).heap a with
        | none => exact absurd hx ha
        | some sx =>
          exact Nat.lt_succ_of_lt (hL a (by rw [hother a sx e1 e2 hx]; simp))
  · intro p c sp sc hp hc hpar hact hsub hcp
    by_cases p1 : p = m.next
    · rw [p1, hnew] at hp
      cases hp
      cases hact
    · by_cases p2 : p = j
      · rw [p2, hat] at hp
        cases hp
        rcases hs with h | h
        · rw [h] at hact; cases hact
        · exact absurd h hpar
      · have hp0 := hother p sp p1 p2 hp
        by_cases c1 : c = m.next
        · rw [c1, hnew] at hc
          cases hc
          exact absurd (Option.some.inj hcp).symm p2
        · by_cases c2 : c = j
          · rw [c2, hat] at hc
            cases hc
            exact hG p j sp sj hp0 hjm hpar hact (c2 ▸ hsub) hcp
          · exact hG p c sp sc hp0 (hother c sc c1 c2 hc) hpar hact hsub hcp

/-- Every call that returns keeps both invariants, on whatever node it is
made. -/
theorem Op.run_settled {m m1 : Machine} (op : Op) (fuel : Nat) (hL : LiveBelow m)
    (hG : Settled m) (hrun : op.run fuel m = some m1) : LiveBelow m1 ∧ Settled m1 := by
  cases op with
  | enterState n s =>
    obtain ⟨j, sj, d, -, hj, hs, rfl⟩ := enterState_shape s fuel m n m1 hL hrun
    exact attached_settled s hL hG hj hs
  | endState n =>
    obtain ⟨hnx, -, T, -, hclosed, hheap⟩ := endState_shape fuel m n m1 hrun
    have hback : ∀ x sx, m1.heap x = some sx → ∃ s0, m.heap x = some s0 ∧
        sx.m_parentState = s0.m_parentState ∧ sx.m_subState = s0.m_subState ∧
        (x ∈ T → sx.m_active = false) ∧ (x ∉ T → sx = s0) := by
      intro x sx h
      rw [hheap x] at h
      cases h0 : m.heap x with
      | none => rw [h0] at h; split at h <;> simp at h
      | some s0 =>
        rw [h0] at h
        split at h
        · rename_i hin
          simp only [Option.map_some', Option.some.injEq] at h
          exact ⟨s0, rfl, by rw [← h], by rw [← h], fun _ => by rw [← h],
            fun hn => absurd hin hn⟩
        · rename_i hin
          simp only [Option.some.injEq] at h
          exact ⟨s0, rfl, by rw [← h], by rw [← h], fun hn => absurd hn hin, fun _ => h.symm⟩
    constructor
    · intro a ha
      rw [hnx]
      apply hL a
      cases h1 : m1.heap a with
      | none => exact absurd h1 ha
      | some sx =>
        obtain ⟨s0, h0, -⟩ := hback a sx h1
        rw [h0]; simp
    · intro p c sp sc hp hc hpar hact hsub hcp
      obtain ⟨p0, hp0, hpp, hps, hpT, hpn⟩ := hback p sp hp
      obtain ⟨c0, hc0, hcp0, -, hcT, hcn⟩ := hback c sc hc
      by_cases hcin : c ∈ T
      · exact hcT hcin
      · have hpin : p ∉ T := fun h => hcin (hclosed p h p0 hp0 c (by rw [← hps]; exact hsub))
        have e1 := hpn hpin
        have e2 := hcn hcin
        subst e1
        subst e2
        exact hG p c sp sc hp0 hc0 hpar hact hsub hcp
  | execute n =>
    obtain ⟨hnx, -, hshape⟩ := execute_shape fuel m n m1 hrun
    constructor
    · intro a ha
      rw [hnx]
      apply hL a
      cases h1 : m1.heap a with
      | none => exact absurd h1 ha
      | some sx =>
        obtain ⟨s0, h0, -⟩ := hshape a sx h1
        rw [h0]; simp
    · intro p c sp sc hp hc hpar hact hsub hcp
      obtain ⟨p0, hp0, hpp, hpa, hps⟩ := hshape p sp hp
      obtain ⟨c0, hc0, hcp0, hca, -⟩ := hshape c sc hc
      rw [hca]
      refine hG p c p0 c0 hp0 hc0 (by rw [← hpp]; exact hpar) (by rw [← hpa]; exact hact)
        ?_ (by rw [← hcp0]; exact hcp)
      rcases hps with h | h
      · rw [← h]; exact hsub
      · rw [h] at hsub; cases hsub

/-- Every machine of a run holds only objects from the allocator, and in it
inactivity passes down. -/
theorem Reachable.settled {root : Addr} {m : Machine} (h : Reachable root m) :
    LiveBelow m ∧ Settled m := by
  induction h with
  | start m wf honly _ =>
    have hpar : parent m root = some none := wf.2.2.2.1
    constructor
    · intro a ha
      by_cases e : a = root
      · rw [e]; exact wf.2.2.1 root (by simp)
      · exact absurd (honly a e) ha
    · intro p c sp sc hp _ hpar1 _ _ _
      by_cases e : p = root
      · rw [e] at hp
        simp [parent, hp] at hpar
        exact absurd hpar hpar1
      · rw [honly p e] at hp
        cases hp
  | step m m1 op fuel _ _ hrun ih =>
    exact Op.run_settled op fuel ih.1 ih.2 hrun

/-- The lower part of a path is a path. -/
theorem Path.drop_front {m : Machine} {par : Option Addr} {pre post : List Addr}
    (h : Path m par (pre ++ post)) : Path m (parentOf par pre) post := by
  induction pre generalizing par with
  | nil => exact h
  | cons a rest ih => exact ih h.2.2

/-- Below an inactive node of a path that has a parent, in a machine where
inactivity passes down, every node is inactive. -/
theorem Path.settled_below {m : Machine} (hG : Settled m) :
    ∀ (post : List Addr) (x q : Addr), Path m (some q) (x :: post) →
      active m x = some false → ∀ y ∈ post, active m y = some false := by
  intro post
  induction post with
  | nil => intro x q _ _ y hy; cases hy
  | cons c r ih =>
    intro x q hp hx y hy
    obtain ⟨h1, h2, h3⟩ := hp
    have h2a := h2 (by simp)
    have h4 := h3.1
    cases hsx : m.heap x with
    | none => simp [active, hsx] at hx
    | some sx =>
      cases hsc : m.heap c with
      | none => simp [parent, hsc] at h4
      | some sc =>
        simp only [parent, hsx, Option.map_some', Option.some.injEq] at h1
        simp only [child, hsx, Option.map_some', Option.some.injEq, List.head?_cons] at h2a
        simp only [parent, hsc, Option.map_some', Option.some.injEq] at h4
        simp only [active, hsx, Option.map_some', Option.some.injEq] at hx
        have hc : active m c = some false := by
          simp only [active, hsc, Option.map_some', Option.some.injEq]
          exact hG x c sx sc hsx hsc (by rw [h1]; simp) hx h2a h4
        rcases List.mem_cons.mp hy with e | e
        · rw [e]; exact hc
        · exact ih c x h3 hc y e

/-- A linked path of a machine whose live objects all come from the allocator
is a well-formed chain. -/
theorem Linked.wellFormed {m : Machine} {root : Addr} {rest : List Addr}
    (hl : Linked m none (root :: rest)) (hL : LiveBelow m) : WellFormed m (root :: rest) := by
  refine ⟨by simp, Linked.nodup hl, fun a ha => hL a ?_, hl⟩
  obtain ⟨st, h⟩ := Linked.live hl ha
  rw [h]; simp

/-- The first machine of the test runs is a start. -/
theorem bareRoot_reachable : Reachable 0 bareRoot :=
  Reachable.start bareRoot (by decide)
    (fun a ha => by simp [bareRoot, mkChain, chainHeap, Heap.set, emptyHeap, ha]) rfl

/-- The second machine of the test runs is reachable. -/
theorem entered_reachable : Reachable 0 entered :=
  Reachable.step bareRoot entered (Op.enterState 0 8) 1 bareRoot_reachable
    ⟨[], by decide, by decide⟩ rfl

/-- The machine with the chain root -> 1 -> 2 is reachable. -/
theorem enteredTwice_reachable : Reachable 0 enteredTwice :=
  Reachable.step entered enteredTwice (Op.enterState 0 9) 2 entered_reachable
    ⟨[1], by decide, by decide⟩ rfl

/-- The machine in which nodes 1 and 2 have been ended is reachable. -/
theorem bothEnded_reachable : Reachable 0 bothEnded :=
  Reachable.step enteredTwice bothEnded (Op.endState 1) 2 enteredTwice_reachable
    ⟨[1, 2], by decide, by decide⟩ rfl

/-! ### Runs in memory whose child slots hold a null -/

/-- The child of a node of a linked path is on the path. -/
theorem Linked.child_mem {m : Machine} {par : Option Addr} {l : List Addr} {p c : Addr}
    (h : Linked m par l) (hp : p ∈ l) (hc : child m p = some (some c)) : c ∈ l := by
  obtain ⟨s1, s2, hdec⟩ := List.append_of_mem hp
  obtain ⟨st, hx, -, hsub, -⟩ := Linked.node (hdec ▸ h)
  have : s2.head? = some c := by
    rw [← hsub]; simpa [child, hx] using hc
  rw [hdec]
  simp [List.mem_of_mem_head? this]

/-- The invariant survives `endState` on any node of the chain. -/
theorem ChainInv.after_endState {root : Addr} {m : Machine} {rest pre post : List Addr}
    {n : Addr} (inv : ChainInv root m rest) (hdec : root :: rest = pre ++ n :: post) :
    ∃ m1, (∀ f, (n :: post).length ≤ f → endState f m n = some m1) ∧
      ChainInv root m1 rest := by
  have wf : WellFormed m (pre ++ n :: post) := hdec ▸ inv.wf
  obtain ⟨m1, hrun, hwf, -, htr, hfields, hout, hin⟩ := endState_frame wf
  have hzone : Linked m (parentOf none pre) (n :: post) := Linked.suffix wf.2.2.2
  have hact : ∀ x, x ∉ n :: post → active m1 x = active m x := by
    intro x hx; rw [active, active, hout x hx]
  refine ⟨m1, hrun, ⟨hdec ▸ hwf, ?_, ?_, ?_, ?_⟩⟩
  · intro x hx
    rw [(hfields x).2.2.1, (hfields root).2.2.1]
    exact inv.ctx x hx
  · intro p hp c hc hpa
    by_cases hcz : c ∈ n :: post
    · exact hin c hcz
    · rw [(hfields p).1] at hc
      have hpz : p ∉ n :: post := fun h => hcz (Linked.child_mem hzone h hc)
      rw [hact c hcz]
      rw [hact p hpz] at hpa
      exact inv.below p hp c hc hpa
  · intro x hx
    rw [htr]
    exact List.mem_append_left _ (inv.started x hx)
  · intro x hx hxa
    rw [htr]
    by_cases hxz : x ∈ n :: post
    · have h1 : [Event.mk Hook.init x].Sublist m.trace :=
        List.singleton_sublist.mpr (inv.started x hx)
      have h2 : [Event.mk Hook.finalize x].Sublist
          ((n :: post).reverse.map (Event.mk Hook.finalize)) :=
        List.singleton_sublist.mpr
          (List.mem_map.mpr ⟨x, List.mem_reverse.mpr hxz, rfl⟩)
      exact h1.append h2
    · rw [hact x hxz] at hxa
      exact (inv.finished x hx hxa).trans (List.sublist_append_left _ _)

/-- The invariant survives a step that keeps the nodes `front ++ [nj]` of the
chain with their flags and contexts, drops the nodes `gone` below `nj`, and
hangs the fresh active nodes `extra` there instead. -/
theorem ChainInv.rebuild {root : Addr} {m m1 : Machine}
    {rest rest1 front gone : List Addr} {nj : Addr} (extra : List Addr) (t : List Event)
    (inv : ChainInv root m rest)
    (hdec : root :: rest = front ++ nj :: gone)
    (hdec1 : root :: rest1 = front ++ nj :: extra)
    (hwf : WellFormed m1 (root :: rest1))
    (hfresh : ∀ x ∈ extra, x ∉ root :: rest)
    (hfl : ∀ a ∈ front ++ [nj], active m1 a = active m a ∧ obj m1 a = obj m a)
    (hch : ∀ a ∈ front, child m1 a = child m a)
    (htr : m1.trace = m.trace ++ t)
    (hextra : ∀ x ∈ extra, active m1 x = some true ∧ obj m1 x = obj m nj ∧
      Event.mk Hook.init x ∈ m1.trace)
    (hnj : extra ≠ [] → front ≠ [] → active m nj = some true) :
    ChainInv root m1 rest1 := by
  have hnd1 := hwf.2.1
  have hroot1 : root ∉ rest1 := (List.nodup_cons.mp hnd1).1
  have hrootk : root ∈ front ++ [nj] := by
    cases front with
    | nil =>
      simp only [List.nil_append, List.cons.injEq] at hdec1
      simp [hdec1.1]
    | cons a f =>
      simp only [List.cons_append, List.cons.injEq] at hdec1
      simp [hdec1.1]
  have hkeep_old : ∀ a ∈ front ++ [nj], a ∈ root :: rest := by
    intro a ha
    rw [hdec]
    simp only [List.mem_append, List.mem_singleton] at ha
    rcases ha with h | h
    · simp [h]
    · simp [h]
  have hsplit : ∀ a ∈ rest1, (a ∈ front ++ [nj] ∧ a ∈ rest) ∨ a ∈ extra := by
    intro a ha
    have h1 : a ∈ front ++ nj :: extra := hdec1 ▸ List.mem_cons_of_mem _ ha
    have hne : a ≠ root := fun e => hroot1 (e ▸ ha)
    simp only [List.mem_append, List.mem_cons] at h1
    have hk : a ∈ front ++ [nj] → a ∈ rest := by
      intro h
      rcases List.mem_cons.mp (hkeep_old a h) with e | e
      · exact absurd e hne
      · exact e
    rcases h1 with h | h | h
    · exact Or.inl ⟨by simp [h], hk (by simp [h])⟩
    · exact Or.inl ⟨by simp [h], hk (by simp [h])⟩
    · exact Or.inr h
  have hobjnj : obj m nj = obj m root := by
    rcases List.mem_cons.mp (hkeep_old nj (by simp)) with e | e
    · rw [e]
    · exact inv.ctx nj e
  refine ⟨hwf, ?_, ?_, ?_, ?_⟩
  · intro x hx
    rw [(hfl root hrootk).2]
    rcases hsplit x hx with ⟨h1, h2⟩ | h
    · rw [(hfl x h1).2]; exact inv.ctx x h2
    · rw [(hextra x h).2.1]; exact hobjnj
  · intro p hp c hc hpa
    rcases hsplit p hp with ⟨h1, h2⟩ | h
    · simp only [List.mem_append, List.mem_singleton] at h1
      rcases h1 with hpf | hpn
      · have hcm : child m p = some (some c) := by rw [← hch p hpf]; exact hc
        have hcold : c ∈ root :: rest :=
          Linked.child_mem inv.wf.2.2.2 (List.mem_cons_of_mem _ h2) hcm
        have hcnew : c ∈ root :: rest1 :=
          Linked.child_mem hwf.2.2.2 (List.mem_cons_of_mem _ hp) hc
        have hck : c ∈ front ++ [nj] := by
          rw [hdec1] at hcnew
          simp only [List.mem_append, List.mem_cons] at hcnew
          rcases hcnew with h | h | h
          · simp [h]
          · simp [h]
          · exact absurd hcold (hfresh c h)
        rw [(hfl c hck).1]
        rw [(hfl p (by simp [hpf])).1] at hpa
        exact inv.below p h2 c hcm hpa
      · exfalso
        subst hpn
        obtain ⟨st, hx, -, hsub, -⟩ := Linked.node (hdec1 ▸ hwf.2.2.2)
        have hhead : extra.head? = some c := by
          rw [← hsub]; simpa [child, hx] using hc
        have hne : extra ≠ [] := by
          intro e; rw [e] at hhead; simp at hhead
        have hfne : front ≠ [] := by
          intro e
          rw [e] at hdec1
          simp only [List.nil_append, List.cons.injEq] at hdec1
          exact hroot1 (hdec1.1 ▸ hp)
        rw [(hfl p (by simp)).1, hnj hne hfne] at hpa
        cases hpa
    · rw [(hextra p h).1] at hpa
      cases hpa
  · intro x hx
    rcases hsplit x hx with ⟨-, h2⟩ | h
    · rw [htr]; exact List.mem_append_left _ (inv.started x h2)
    · exact (hextra x h).2.2
  · intro x hx hxa
    rcases hsplit x hx with ⟨h1, h2⟩ | h
    · rw [(hfl x h1).1] at hxa
      rw [htr]
      exact (inv.finished x h2 hxa).trans (List.sublist_append_left _ _)
    · rw [(hextra x h).1] at hxa
      cases hxa

/-- A non-empty initial part of `root :: rest` starts with `root`. -/
theorem front_cons {root nj : Addr} {rest front tail : List Addr}
    (h : root :: rest = front ++ nj :: tail) :
    ∃ keep, front ++ [nj] = root :: keep ∧ rest = keep ++ tail := by
  cases front with
  | nil =>
    simp only [List.nil_append, List.cons.injEq] at h
    exact ⟨[], by simp [h.1], by simp [h.2]⟩
  | cons a f =>
    simp only [List.cons_append, List.cons.injEq] at h
    exact ⟨f ++ [nj], by simp [h.1], by simp [h.2]⟩

/-- The invariant survives a tick on any node of the chain; the nodes that leave
the chain hang below an inactive node. -/
theorem ChainInv.after_execute {root : Addr} {m : Machine} {rest : List Addr} {n : Addr}
    (inv : ChainInv root m rest) (hn : n ∈ root :: rest) :
    ∃ m1 keep gone, (∀ f, (root :: rest).length ≤ f → execute f m n = some m1) ∧
      rest = keep ++ gone ∧ (∀ c, gone.head? = some c → active m c = some false) ∧
      ChainInv root m1 keep := by
  obtain ⟨pre, post, hdec⟩ := List.append_of_mem hn
  have hl := inv.wf.2.2.2
  have hzone : Linked m (parentOf none pre) (n :: post) := Linked.suffix (hdec ▸ hl)
  obtain ⟨-, -, -, -, hpost⟩ := Linked.head hzone
  obtain ⟨act, back, hsplit, hact, hback⟩ := active_split post (some n) hpost
  subst hsplit
  obtain ⟨f0, hf0⟩ := lastOf_split n act
  have hdec2 : root :: rest = (pre ++ f0) ++ lastOf n act :: back := by
    have e : n :: (act ++ back) = (n :: act) ++ back := rfl
    rw [hdec, e, hf0]
    simp
  obtain ⟨keep, hkeep, hrest⟩ := front_cons hdec2
  have hnd : ((pre ++ f0) ++ lastOf n act :: back).Nodup := hdec2 ▸ inv.wf.2.1
  have hnd' := hnd
  rw [List.nodup_append] at hnd'
  obtain ⟨hndf, hndj, hdisj⟩ := hnd'
  have hjback : lastOf n act ∉ back := (List.nodup_cons.mp hndj).1
  let m1 : Machine :=
    { m with
      heap := pruned m (lastOf n act) back.head?
      trace := m.trace ++ (n :: act).map (Event.mk Hook.preUpdate) ++
        (n :: act).reverse.map (Event.mk Hook.postUpdate)
      observed := m.observed ++ seen m Hook.preUpdate (n :: act) ++
        seen m Hook.postUpdate (n :: act).reverse }
  have hnotdead : ∀ a ∈ (pre ++ f0) ++ [lastOf n act], ∀ c, back.head? = some c → a ≠ c := by
    intro a ha c hc e
    have hcb : c ∈ back := List.mem_of_mem_head? hc
    rcases List.mem_append.mp ha with h | h
    · exact hdisj h (List.mem_cons_of_mem _ (e ▸ hcb))
    · rw [List.mem_singleton] at h
      exact hjback (h ▸ e ▸ hcb)
  have hwf : WellFormed m1 (root :: keep) := by
    rw [← hkeep]
    refine ⟨by simp, ?_, ?_, pruned_linked m1 (hdec2 ▸ hl) rfl⟩
    · rw [List.nodup_append]
      refine ⟨hndf, by simp, ?_⟩
      intro a ha hb
      rw [List.mem_singleton] at hb
      exact hdisj ha (by simp [hb])
    · intro a ha
      apply inv.wf.2.2.1
      rw [hdec2]
      rcases List.mem_append.mp ha with h | h
      · exact List.mem_append_left _ h
      · rw [List.mem_singleton] at h
        exact List.mem_append_right _ (by simp [h])
  refine ⟨m1, keep, back, ?_, hrest, hback, ?_⟩
  · intro f hf
    refine execute_spec act m n _ back hzone hact hback f ?_
    have : (root :: rest).length = pre.length + (act.length + back.length + 1) := by
      rw [hdec]; simp only [List.length_append, List.length_cons]
    omega
  · refine ChainInv.rebuild [] _ inv hdec2 hkeep.symm hwf (by simp) ?_ ?_
      (List.append_assoc _ _ _) (by simp) (by simp)
    · intro a ha
      have := pruned_fields m m1 (lastOf n act) back.head? rfl (hnotdead a ha)
      exact ⟨this.1, this.2.2⟩
    · intro a ha
      have hne : a ≠ lastOf n act := fun e => hdisj ha (by simp [e])
      have : m1.heap a = m.heap a :=
        pruned_other m hne (hnotdead a (List.mem_append_left _ ha))
      rw [child, child, this]

/-- The invariant survives `enterState` from any node of the chain when the
memory of the new node holds a null child slot; the nodes that leave the chain
hang below an inactive node. -/
theorem ChainInv.after_enterState {root : Addr} {m : Machine} {rest : List Addr} {n : Addr}
    (inv : ChainInv root m rest) (hn : n ∈ root :: rest) (s : StateClass)
    (hslot : (m.uninit m.next).m_subState = none) :
    ∃ m1 keep gone, (∀ f, 2 * (root :: rest).length ≤ f → enterState f m n s = some m1) ∧
      rest = keep ++ gone ∧ (∀ c, gone.head? = some c → active m c = some false) ∧
      ChainInv root m1 (keep ++ [m.next]) := by
  obtain ⟨pre, y, gone, st, hdec, hy, hroot, hdead, hrun⟩ := enterState_spec inv.wf hn s
  obtain ⟨keep, hkeep, hrest⟩ := front_cons hdec
  have hnd := inv.wf.2.1
  rw [hdec, List.nodup_append] at hnd
  obtain ⟨-, hndy, hdisj⟩ := hnd
  have hygone : y ∉ gone := (List.nodup_cons.mp hndy).1
  have hylt : y < m.next := inv.wf.2.2.1 y (by simp [hdec])
  have hnext : (dropChild m gone.head?).next = m.next := dropChild_next _ _
  have hwf : WellFormed (attached (dropChild m gone.head?) y st s)
      (root :: (keep ++ [m.next])) := by
    have := attached_wellFormed (hdec ▸ inv.wf) hy s hslot
    rw [← List.cons_append, ← hkeep]
    simpa using this
  have hpre : ∀ a ∈ pre, (attached (dropChild m gone.head?) y st s).heap a = m.heap a := by
    intro a ha
    have h1 : a ≠ m.next := ne_of_lt (inv.wf.2.2.1 a (by simp [hdec, ha]))
    have h2 : a ≠ y := fun e => hdisj ha (by simp [e])
    rw [attached_heap_other _ _ _ (by rw [hnext]; exact h1) h2]
    apply dropChild_heap_ne
    intro c hc e
    exact hdisj ha (List.mem_cons_of_mem _ (e ▸ List.mem_of_mem_head? hc))
  have hyat := attached_heap_at (dropChild m gone.head?) st s
    (by rw [hnext]; exact ne_of_lt hylt)
  have hnew := attached_heap_new (dropChild m gone.head?) y st s
  rw [hnext] at hnew
  refine ⟨_, keep, gone, hrun, hrest, hdead, ?_⟩
  refine ChainInv.rebuild [m.next] [Event.mk Hook.init m.next] inv hdec
    (by rw [← List.cons_append, ← hkeep]; simp) hwf ?_ ?_ ?_ ?_ ?_ ?_
  · intro x hx hx1
    rw [List.mem_singleton] at hx
    exact lt_irrefl _ (hx ▸ inv.wf.2.2.1 x hx1)
  · intro a ha
    rcases List.mem_append.mp ha with h | h
    · rw [active, active, obj, obj, hpre a h]; exact ⟨rfl, rfl⟩
    · rw [List.mem_singleton] at h
      rw [h, active, active, obj, obj, hyat, hy]
      exact ⟨rfl, rfl⟩
  · intro a ha
    rw [child, child, hpre a ha]
  · simp [attached]
  · intro x hx
    rw [List.mem_singleton] at hx
    rw [hx]
    refine ⟨by simp [active, hnew], by simp [obj, hnew, hy], ?_⟩
    simp [attached]
  · intro _ hne
    rcases hroot with h | h
    · simp [active, hy, h]
    · exact absurd h hne

/-- A path that starts where a linked path starts runs inside it. -/
theorem Path.mem_linked {m : Machine} :
    ∀ (l1 : List Addr) (a : Addr) (par : Option Addr) (l2 : List Addr),
      Path m par (a :: l1) → Linked m par (a :: l2) → ∀ x ∈ a :: l1, x ∈ a :: l2 := by
  intro l1
  induction l1 with
  | nil =>
    intro a par l2 _ _ x hx
    rw [List.mem_singleton] at hx
    rw [hx]; exact List.mem_cons_self _ _
  | cons b r ih =>
    intro a par l2 hp hl x hx
    obtain ⟨-, hc, hp1⟩ := hp
    obtain ⟨-, hc1, hl1⟩ := hl
    have hc2 := hc (by simp)
    rw [hc1] at hc2
    cases l2 with
    | nil => simp at hc2
    | cons b1 r2 =>
      simp only [List.head?_cons, Option.some.injEq] at hc2
      subst hc2
      rcases List.mem_cons.mp hx with e | e
      · rw [e]; exact List.mem_cons_self _ _
      · exact List.mem_cons_of_mem _ (ih _ (some a) r2 hp1 hl1 x e)

/-- A node on the chain of `root` is a node of the list that the invariant
speaks of. -/
theorem ChainInv.mem_of_onChain {root : Addr} {m : Machine} {rest : List Addr} {n : Addr}
    (inv : ChainInv root m rest) (h : OnChain m root n) : n ∈ root :: rest := by
  obtain ⟨r, hp, hmem⟩ := h
  exact Path.mem_linked r root none rest hp inv.wf.2.2.2 n hmem

/-- One call on a node of the chain, when the memory of the next new node holds
a null child slot: the invariant survives, and the nodes that leave the chain
are the nodes `gone`, which hang below an inactive node. -/
theorem ChainInv.step {root : Addr} {m m1 : Machine} {rest : List Addr} {op : Op}
    {fuel : Nat} (inv : ChainInv root m rest) (hn : op.node ∈ root :: rest)
    (hrun : op.run fuel m = some m1) (hslot : (m.uninit m.next).m_subState = none) :
    ∃ keep gone rest1, rest = keep ++ gone ∧
      (∀ c, gone.head? = some c → active m c = some false) ∧
      ChainInv root m1 rest1 ∧ (rest1 = keep ∨ rest1 = keep ++ [m.next]) := by
  cases op with
  | enterState n s =>
    obtain ⟨m2, keep, gone, hall, hrest, hdead, inv2⟩ := inv.after_enterState hn s hslot
    have e : m1 = m2 :=
      Op.run_unique (Op.enterState n s) m hrun (hall _ (le_refl _))
    exact ⟨keep, gone, _, hrest, hdead, e ▸ inv2, Or.inr rfl⟩
  | endState n =>
    obtain ⟨pre, post, hdec⟩ := List.append_of_mem hn
    obtain ⟨m2, hall, inv2⟩ := inv.after_endState hdec
    have e : m1 = m2 := Op.run_unique (Op.endState n) m hrun (hall _ (le_refl _))
    exact ⟨rest, [], rest, by simp, by simp, e ▸ inv2, Or.inl rfl⟩
  | execute n =>
    obtain ⟨m2, keep, gone, hall, hrest, hdead, inv2⟩ := inv.after_execute hn
    have e : m1 = m2 := Op.run_unique (Op.execute n) m hrun (hall _ (le_refl _))
    exact ⟨keep, gone, keep, hrest, hdead, e ▸ inv2, Or.inl rfl⟩

/-- No call assigns to the free memory. -/
theorem Op.run_uninit {m m1 : Machine} (op : Op) (fuel : Nat) (hL : LiveBelow m)
    (hrun : op.run fuel m = some m1) : m1.uninit = m.uninit := by
  cases op with
  | enterState n s =>
    obtain ⟨j, sj, d, -, -, -, rfl⟩ := enterState_shape s fuel m n m1 hL hrun
    simp [attached]
  | endState n => exact (endState_shape fuel m n m1 hrun).2.1
  | execute n => exact (execute_shape fuel m n m1 hrun).2.1

/-- When the free memory holds a null in every child slot, every machine of a
run satisfies the invariant. -/
theorem Reachable.inv {root : Addr} {m : Machine} (h : Reachable root m) :
    (∀ a, (m.uninit a).m_subState = none) → ∃ rest, ChainInv root m rest := by
  induction h with
  | start m wf _ _ =>
    intro _
    exact ⟨[], wf, by simp, by simp, by simp, by simp⟩
  | step m m1 op fuel hr hon hrun ih =>
    intro hz1
    have hu := Op.run_uninit op fuel hr.settled.1 hrun
    have hz : ∀ a, (m.uninit a).m_subState = none := fun a => by rw [← hu]; exact hz1 a
    obtain ⟨rest, inv⟩ := ih hz
    obtain ⟨-, -, rest1, -, -, inv1, -⟩ :=
      inv.step (inv.mem_of_onChain hon) hrun (hz m.next)
    exact ⟨rest1, inv1⟩

/-- Below an inactive node of a path on which inactivity passes from a node to
its child, every node is inactive. -/
theorem Linked.inactive_below {m : Machine} :
    ∀ (g : List Addr) (c : Addr) (par : Option Addr), Linked m par (c :: g) →
      (∀ p ∈ c :: g, ∀ d, child m p = some (some d) → active m p = some false →
        active m d = some false) →
      active m c = some false → ∀ x ∈ c :: g, active m x = some false := by
  intro g
  induction g with
  | nil =>
    intro c par _ _ hc x hx
    rw [List.mem_singleton] at hx
    rw [hx]; exact hc
  | cons d r ih =>
    intro c par hl hloc hc x hx
    obtain ⟨st, hst, -, hsub, ht⟩ := Linked.head hl
    have hcd : child m c = some (some d) := by simp [child, hst, hsub]
    have hd : active m d = some false := hloc c (by simp) d hcd hc
    rcases List.mem_cons.mp hx with e | e
    · rw [e]; exact hc
    · exact ih d (some c) ht (fun p hp => hloc p (List.mem_cons_of_mem _ hp)) hd x e

/-- The nodes that hang below an inactive node other than the root are all
inactive. -/
theorem ChainInv.gone_inactive {root : Addr} {m : Machine} {rest keep gone : List Addr}
    (inv : ChainInv root m rest) (hrest : rest = keep ++ gone)
    (hdead : ∀ c, gone.head? = some c → active m c = some false) :
    ∀ x ∈ gone, active m x = some false := by
  cases gone with
  | nil => simp
  | cons c g =>
    have hl : Linked m none ((root :: keep) ++ c :: g) := by
      have := inv.wf.2.2.2
      rw [hrest] at this
      simpa using this
    refine Linked.inactive_below g c _ (Linked.suffix hl) ?_ (hdead c rfl)
    intro p hp d hd hpa
    exact inv.below p (by rw [hrest]; exact List.mem_append_right _ hp) d hd hpa

/-- The lifecycle order when the free memory holds a null in every child slot: in
a run from a childless root, take any call of `enterState`, `endState` or
`execute` made on a node of the current chain `root :: l` that returns, and let
`root :: l1` be the chain afterwards.  Every node `x` that was on the chain and
is no longer on it was inactive when the call was made, and the trace up to the
call holds its `init` followed by its `finalize`. -/
theorem removed_nodes_are_finished_of_null_slots (root : Addr) (m m1 : Machine) (op : Op)
    (fuel : Nat) (l l1 : List Addr) (hz : ∀ a, (m.uninit a).m_subState = none)
    (hr : Reachable root m) (hl : Linked m none (root :: l))
    (hop : op.node ∈ root :: l) (hrun : op.run fuel m = some m1)
    (hl1 : Linked m1 none (root :: l1)) :
    ∀ x ∈ l, x ∉ l1 → active m x = some false ∧
      [Event.mk Hook.init x, Event.mk Hook.finalize x].Sublist m.trace := by
  obtain ⟨rest, inv⟩ := hr.inv hz
  have e : root :: l = root :: rest := Linked.unique hl inv.wf.2.2.2 rfl
  have el : l = rest := (List.cons.inj e).2
  subst el
  obtain ⟨keep, gone, rest1, hrest, hdead, inv1, hshape⟩ := inv.step hop hrun (hz m.next)
  have e1 : root :: l1 = root :: rest1 := Linked.unique hl1 inv1.wf.2.2.2 rfl
  have el1 : l1 = rest1 := (List.cons.inj e1).2
  subst el1
  intro x hx hx1
  have hxgone : x ∈ gone := by
    rw [hrest] at hx
    rcases List.mem_append.mp hx with h | h
    · exfalso
      rcases hshape with h2 | h2
      · exact hx1 (h2 ▸ h)
      · exact hx1 (h2 ▸ List.mem_append_left _ h)
    · exact h
  have hxa := inv.gone_inactive hrest hdead x hxgone
  exact ⟨hxa, inv.finished x hx hxa⟩

/-- Well-formedness when the free memory holds a null in every child slot: in
every machine of a run that starts from a root with no parent and no child, the
nodes reachable from the root form one well-formed chain `root :: rest` (a
simple path of live objects, and the only path from the root), the root has no
parent, every other node has as parent the node of the chain that holds it as
child, and every node has the context of the root. -/
theorem chain_wellFormed_of_null_slots (root : Addr) (m : Machine)
    (hz : ∀ a, (m.uninit a).m_subState = none) (hr : Reachable root m) :
    ∃ rest, WellFormed m (root :: rest) ∧
      (∀ l, Linked m none (root :: l) → l = rest) ∧
      parent m root = some none ∧
      (∀ x ∈ rest, ∃ p ∈ root :: rest,
        parent m x = some (some p) ∧ child m p = some (some x)) ∧
      (∀ x ∈ root :: rest, obj m x = obj m root) := by
  obtain ⟨rest, inv⟩ := hr.inv hz
  have hl := inv.wf.2.2.2
  refine ⟨rest, inv.wf, ?_, hl.1, ?_, ?_⟩
  · intro l h
    exact (List.cons.inj (Linked.unique h hl rfl)).2
  · intro x hx
    obtain ⟨s1, s2, hdec⟩ := List.append_of_mem hx
    rcases List.eq_nil_or_concat (root :: s1) with h | ⟨front, p, h⟩
    · cases h
    · rw [List.concat_eq_append] at h
      have hdec1 : root :: rest = front ++ p :: (x :: s2) := by
        rw [hdec, ← List.cons_append, h]; simp
      have hdec2 : root :: rest = (front ++ [p]) ++ x :: s2 := by
        rw [hdec1]; simp
      obtain ⟨stp, hpx, -, hsub, -⟩ := Linked.node (hdec1 ▸ hl)
      obtain ⟨stx, hxx, hpar, -, -⟩ := Linked.node (hdec2 ▸ hl)
      rw [parentOf_append_singleton] at hpar
      refine ⟨p, by rw [hdec1]; simp, ?_, ?_⟩
      · simp [parent, hxx, hpar]
      · simp [child, hpx, hsub]
  · intro x hx
    rcases List.mem_cons.mp hx with e | e
    · rw [e]
    · exact inv.ctx x e

/-- The test machine with the stale free memory is a start. -/
theorem loopRoot_reachable : Reachable 0 loopRoot :=
  Reachable.start loopRoot (by decide)
    (fun a ha => by simp [loopRoot, mkChain, chainHeap, Heap.set, emptyHeap, ha]) rfl

/-- The machine after the first `enterState` of the second test run is
reachable. -/
theorem loopEntered_reachable : Reachable 0 loopEntered :=
  Reachable.step loopRoot loopEntered (Op.enterState 0 8) 1 loopRoot_reachable
    ⟨[], by decide, by decide⟩ rfl

/-- In a machine where the child slots of two nodes point to each other,
`endState` on either node never returns. -/
theorem endState_on_cycle {m : Machine} {a b : Addr} (hab : child m a = some (some b))
    (hba : child m b = some (some a)) :
    ∀ f, endState f m a = none ∧ endState f m b = none := by
  intro f
  induction f with
  | zero => exact ⟨rfl, rfl⟩
  | succ f ih =>
    cases ha : m.heap a with
    | none => simp [child, ha] at hab
    | some sa =>
      cases hb : m.heap b with
      | none => simp [child, hb] at hba
      | some sb =>
        simp only [child, ha, Option.map_some', Option.some.injEq] at hab
        simp only [child, hb, Option.map_some', Option.some.injEq] at hba
        constructor
        · rw [endState]; simp only [ha, hab, ih.2]
        · rw [endState]; simp only [hb, hba, ih.1]

/-- C13, the code at a failing input: the root `0` alone and inactive, the free
memory holding the address of the root.  `root.enterState(8)` attaches node 1,
whose child slot, which `State()` and `createSubState` do not assign, holds the
address of the root.  `root.enterState(9)`, a call on a node of the chain,
descends to node 1, finds the object in its child slot inactive and deletes it:
the root is destroyed although no `finalize` hook has run at all, and nodes 1
and 2 stay live and active with no root above them. -/
theorem root_deleted_without_finalize :
    Reachable 0 loopEntered ∧ OnChain loopEntered 0 0 ∧
    active loopEntered 0 = some false ∧ child loopEntered 1 = some (some 0) ∧
    (∀ f, 2 ≤ f → enterState f loopEntered 0 9 = some loopReplaced) ∧
    Reachable 0 loopReplaced ∧ loopReplaced.heap 0 = none ∧
    loopReplaced.trace = [Event.mk Hook.init 1, Event.mk Hook.init 2] ∧
    active loopReplaced 1 = some true ∧ parent loopReplaced 1 = some (some 0) ∧
    active loopReplaced 2 = some true ∧ parent loopReplaced 2 = some (some 1) :=
  ⟨loopEntered_reachable, ⟨[1], by decide, by decide⟩, by decide, by decide,
    fun f hf => by
      obtain ⟨g, rfl⟩ : ∃ g, f = g + 2 := ⟨f - 2, by omega⟩
      rfl,
    Reachable.step loopEntered loopReplaced (Op.enterState 0 9) 2 loopEntered_reachable
      ⟨[1], by decide, by decide⟩ rfl,
    by decide, by decide, by decide, by decide, by decide, by decide⟩

/-- C14, the code at a failing input: the root `0` alone, the free memory holding
the address of the root.  After `root.enterState(8)` the child slot of the new
node 1, which `State()` and `createSubState` do not assign, holds the address of
the root: following the child slots from the root gives 0, 1, 0, 1, ..., the
root is held as child by node 1 while it has no parent, no list of nodes from
the root is a well-formed chain, and neither `endState` nor `execute` on the
root returns. -/
theorem chain_cyclic_after_enterState :
    Reachable 0 loopEntered ∧
    child loopEntered 0 = some (some 1) ∧ child loopEntered 1 = some (some 0) ∧
    parent loopEntered 1 = some (some 0) ∧ parent loopEntered 0 = some none ∧
    (¬ ∃ rest, WellFormed loopEntered (0 :: rest)) ∧
    (∀ f, endState f loopEntered 0 = none) ∧ (∀ f, execute f loopEntered 0 = none) := by
  have h01 : child loopEntered 0 = some (some 1) := by decide
  have h10 : child loopEntered 1 = some (some 0) := by decide
  have hp0 : parent loopEntered 0 = some none := by decide
  refine ⟨loopEntered_reachable, h01, h10, by decide, hp0, ?_,
    fun f => (endState_on_cycle h01 h10 f).1,
    fun f => by rcases f with _ | _ | f <;> rfl⟩
  rintro ⟨rest, -, -, -, hl⟩
  obtain ⟨-, hc0, hl1⟩ := hl
  rw [h01] at hc0
  cases rest with
  | nil => simp at hc0
  | cons a r =>
    simp only [List.head?_cons, Option.some.injEq] at hc0
    subst hc0
    obtain ⟨-, hc1, hl2⟩ := hl1
    rw [h10] at hc1
    cases r with
    | nil => simp at hc1
    | cons b r2 =>
      simp only [List.head?_cons, Option.some.injEq] at hc1
      subst hc1
      have := hl2.1
      rw [hp0] at this
      simp at this

/-- C15 (no live state beneath a finished non-root state): in every machine of a
run, along every path `root :: rest` of nodes from the root, each the child of
the one before and with it as parent, below a node that has a parent and is
inactive every node is inactive.  The root is exempt: when the path ends at an
empty child slot, `root.endState()` followed by `root.enterState(s)` returns a
machine of the run in which the root is inactive and its child, the new node,
is active. -/
theorem no_live_state_below_finished (root : Addr) (m : Machine) (rest : List Addr)
    (hr : Reachable root m) (hp : Path m none (root :: rest)) :
    (∀ pre x post, root :: rest = pre ++ x :: post →
      (∃ p, parent m x = some (some p)) → active m x = some false →
      ∀ y ∈ post, active m y = some false) ∧
    (Linked m none (root :: rest) →
      ∀ s, ∃ m1 m2, endState (root :: rest).length m root = some m1 ∧
        enterState 1 m1 root s = some m2 ∧ Reachable root m2 ∧
        active m2 root = some false ∧ child m2 root = some (some m.next) ∧
        active m2 m.next = some true) := by
  obtain ⟨hL, hG⟩ := hr.settled
  constructor
  · intro pre x post hdec hpar hxa y hy
    rw [hdec] at hp
    have hs := Path.drop_front hp
    obtain ⟨p, hp1⟩ := hpar
    have hq : parentOf none pre = some p := by
      have := hs.1
      rw [hp1] at this
      exact (Option.some.inj this).symm
    rw [hq] at hs
    exact Path.settled_below hG post x p hs hxa y hy
  · intro hl s
    have wf := Linked.wellFormed hl hL
    have wf0 : WellFormed m ([] ++ root :: rest) := wf
    obtain ⟨m1, hrun, hwf1, hnx, -, hfields, -, hin⟩ := endState_frame wf0
    have hwf1a : WellFormed m1 (root :: ([] ++ rest)) := hwf1
    obtain ⟨stj, hj, -, hrun2⟩ := enterState_root hwf1a s (by simp)
      (fun c hc => hin c (List.mem_cons_of_mem _ (List.mem_of_mem_head? hc)))
    have hj0 : m1.heap root = some stj := hj
    have hrun2a := hrun2 1 (le_refl _)
    have hrlt : root ≠ (dropChild m1 rest.head?).next := by
      rw [dropChild_next, hnx]; exact ne_of_lt (wf.2.2.1 root (by simp))
    have hflag : stj.m_active = false := by
      have := hin root (by simp)
      simpa [active, hj0] using this
    have e1 := attached_heap_at (dropChild m1 rest.head?) stj s hrlt
    have e2 := attached_heap_new (dropChild m1 rest.head?) root stj s
    rw [dropChild_next, hnx] at e1 e2
    refine ⟨m1, _, hrun _ (le_refl _), hrun2a, ?_, ?_, ?_, ?_⟩
    · refine Reachable.step m1 _ (Op.enterState root s) 1
        (Reachable.step m m1 (Op.endState root) (root :: rest).length hr
          ⟨rest, hp, List.mem_cons_self _ _⟩ (hrun _ (le_refl _)))
        ⟨rest, Linked.toPath hwf1.2.2.2, List.mem_cons_self _ _⟩ hrun2a
    · show active (attached (dropChild m1 rest.head?) root stj s) root = some false
      simp [active, e1, hflag]
    · show child (attached (dropChild m1 rest.head?) root stj s) root = some (some m.next)
      simp [child, e1]
    · show active (attached (dropChild m1 rest.head?) root stj s) m.next = some true
      simp [active, e2]

/-- C15 on the run root -> 1 -> 2 with `endState` on node 1: node 1 has the root
as parent and is inactive, and node 2 beneath it is inactive. -/
theorem no_live_state_below_finished_witness :
    Reachable 0 bothEnded ∧ Path bothEnded none (0 :: [1, 2]) ∧
    Linked bothEnded none (0 :: [1, 2]) ∧
    parent bothEnded 1 = some (some 0) ∧ active bothEnded 1 = some false ∧
    active bothEnded 0 = some true ∧
    ((∀ pre x post, 0 :: [1, 2] = pre ++ x :: post →
      (∃ p, parent bothEnded x = some (some p)) → active bothEnded x = some false →
      ∀ y ∈ post, active bothEnded y = some false) ∧
    (Linked bothEnded none (0 :: [1, 2]) →
      ∀ s, ∃ m1 m2, endState (0 :: [1, 2]).length bothEnded 0 = some m1 ∧
        enterState 1 m1 0 s = some m2 ∧ Reachable 0 m2 ∧
        active m2 0 = some false ∧ child m2 0 = some (some bothEnded.next) ∧
        active m2 bothEnded.next = some true)) :=
  ⟨bothEnded_reachable, by decide, by decide, by decide, by decide, by decide,
    no_live_state_below_finished 0 bothEnded [1, 2] bothEnded_reachable (by decide)⟩

end RSM
